import Mathlib

/-
  Verification of the markdown-to-anki flashcard sync tool (src/anki2.py).

  Shallow embedding conventions:
  * Python strings are `List Char` (sequences of Unicode code points).
  * Character classes used by the regexes (`\d`, `\s`, case folding) are
    modelled on their ASCII ranges, which cover every character the
    program's own markers and tags contain.
  * The external markdown renderer (markdown2 + the embed rewrite inside
    `_convert_to_html`) is an abstract parameter `render : Str → Str`;
    no verified claim depends on its output.
  * The AnkiConnect HTTP endpoint is an oracle `Nat → Except Unit (Option JVal)`
    giving the i-th call's outcome: `.error` is a transport exception raised
    by `requests.post`, `.ok r` is a parsed JSON response whose `result` key
    holds `r` (`none` = no `result` key).  Calls are logged (as attempts)
    in the order they are issued.
  * Fallible Python code (a raised exception) is `Except PyErr`.
-/

set_option maxRecDepth 40000

abbrev Str : Type := List Char

/-- Python `str.isspace` / regex `\s` on the ASCII whitespace characters. -/
def pyIsSpace (c : Char) : Bool :=
  c = ' ' || c = '\t' || c = '\n' || c = '\r' || c = '\x0b' || c = '\x0c'

/-- Python `str.lstrip()` (default: whitespace). -/
def lstrip (s : Str) : Str := s.dropWhile pyIsSpace

/-- Python `str.rstrip()` (default: whitespace). -/
def rstrip (s : Str) : Str := (s.reverse.dropWhile pyIsSpace).reverse

/-- Python `str.strip()` (default: whitespace). -/
def pyStrip (s : Str) : Str := rstrip (lstrip s)

/-- UTF-8 encoding of one code point, as byte values. -/
def utf8Char (c : Char) : List Nat :=
  let n := c.toNat
  if n < 128 then [n]
  else if n < 2048 then [192 + n / 64, 128 + n % 64]
  else if n < 65536 then [224 + n / 4096, 128 + n / 64 % 64, 128 + n % 64]
  else [240 + n / 262144, 128 + n / 4096 % 64, 128 + n / 64 % 64, 128 + n % 64]

/-- Python `s.encode('utf-8')`, as a list of byte values. -/
def utf8Encode (s : Str) : List Nat := (s.map utf8Char).flatten

/-- One bit step of the reflected CRC-32 (polynomial 0xEDB88320), as zlib uses. -/
def crc32Round (crc : Nat) : Nat :=
  if crc % 2 = 1 then crc / 2 ^^^ 0xEDB88320 else crc / 2

/-- Iterate `crc32Round`. -/
def crc32Rounds : Nat → Nat → Nat
  | 0, c => c
  | n + 1, c => crc32Rounds n (crc32Round c)

/-- Absorb one byte into the running CRC-32 state. -/
def crc32Byte (crc b : Nat) : Nat := crc32Rounds 8 (crc ^^^ b)

/-- `zlib.crc32(data)` with the default starting value 0: bitwise reflected
CRC-32 with initial state 0xFFFFFFFF and final xor 0xFFFFFFFF. -/
def crc32 (bs : List Nat) : Nat :=
  bs.foldl crc32Byte 0xFFFFFFFF ^^^ 0xFFFFFFFF

/-- The decimal digit character for `n < 10`. -/
def natToDigitChar (n : Nat) : Char := Char.ofNat (48 + n)

/-- Digit accumulation for `natRepr`, fuelled so it reduces definitionally
(the wrapper always supplies enough fuel: a number has at most as many
decimal digits as its own value). -/
def natReprGo : Nat → Nat → Str → Str
  | 0, _, acc => acc
  | fuel + 1, n, acc =>
    if n = 0 then acc
    else natReprGo fuel (n / 10) (natToDigitChar (n % 10) :: acc)

/-- Python `str(n)` for a natural number `n`. -/
def natRepr (n : Nat) : Str := if n = 0 then ['0'] else natReprGo n n []

/-- `begins pat s`: `s` starts with `pat` (Python `s.startswith(pat)`). -/
def begins : Str → Str → Bool
  | [], _ => true
  | _ :: _, [] => false
  | p :: ps, c :: cs => p = c && begins ps cs

/-- `containsSub pat s`: `pat` occurs in `s` (Python `pat in s`). -/
def containsSub (pat : Str) : Str → Bool
  | [] => begins pat []
  | c :: cs => begins pat (c :: cs) || containsSub pat cs

/-- The literal separator `---` (`FLASHCARD_SEPARATOR`). -/
def SEPS : Str := ['-', '-', '-']

/-- Scanner for Python `content.split('---')` (`FLASHCARD_SEPARATOR`):
leftmost, non-overlapping occurrences of the literal separator.  Fuelled so
it reduces definitionally; each step consumes at least one character, so
fuel = the string's length always suffices. -/
def splitSepGo : Nat → Str → Str → List Str
  | 0, _, acc => [acc.reverse]
  | _ + 1, [], acc => [acc.reverse]
  | fuel + 1, c :: cs, acc =>
    if begins SEPS (c :: cs) then acc.reverse :: splitSepGo fuel (cs.drop 2) []
    else splitSepGo fuel cs (c :: acc)

/-- Python `content.split('---')`. -/
def splitSep (s : Str) : List Str := splitSepGo s.length s []

/-- The literal part of `FLASHCARD_REGEX` (`(?i)#flashcard\s*`). -/
def TAGL : Str := ['#', 'f', 'l', 'a', 's', 'h', 'c', 'a', 'r', 'd']

/-- Case-insensitive `begins`, folding as Python `(?i)` does on ASCII. -/
def ciBegins : Str → Str → Bool
  | [], _ => true
  | _ :: _, [] => false
  | p :: ps, c :: cs => p.toLower = c.toLower && ciBegins ps cs

/-- `(dropWhile p l).length ≤ l.length` (needed for termination below). -/
theorem dropWhile_len_le (p : Char → Bool) : ∀ l : Str, (l.dropWhile p).length ≤ l.length
  | [] => Nat.le_refl _
  | c :: cs => by
    by_cases h : p c
    · simpa [List.dropWhile, h] using Nat.le_succ_of_le (dropWhile_len_le p cs)
    · simp [List.dropWhile, h]

/-- Scanner for Python `re.split(r'(?i)#flashcard\s*', block)`: at each match
the tag and its trailing whitespace (`\s*`, greedy) are consumed and a part is
emitted.  Fuelled so it reduces definitionally; each step consumes at least
one character, so fuel = the string's length always suffices. -/
def splitFlashGo : Nat → Str → Str → List Str
  | 0, _, acc => [acc.reverse]
  | _ + 1, [], acc => [acc.reverse]
  | fuel + 1, c :: rest, acc =>
    if ciBegins TAGL (c :: rest) then
      acc.reverse :: splitFlashGo fuel ((rest.drop 9).dropWhile pyIsSpace) []
    else
      splitFlashGo fuel rest (c :: acc)

/-- Python `re.split(r'(?i)#flashcard\s*', block)`. -/
def splitFlash (s : Str) : List Str := splitFlashGo s.length s []

/-- Literal piece `<!--Meta:id=` of `ANKI_META_REGEX`. -/
def LITID : Str := ['<', '!', '-', '-', 'M', 'e', 't', 'a', ':', 'i', 'd', '=']

/-- Literal piece `;sum=` of `ANKI_META_REGEX`. -/
def LITSUM : Str := [';', 's', 'u', 'm', '=']

/-- Literal piece `-->` of `ANKI_META_REGEX`. -/
def LITEND : Str := ['-', '-', '>']

/-- The `-?` of `ANKI_META_REGEX`'s second group: split a leading minus sign
off, if present. -/
def signSplit (s : Str) : Str × Str :=
  if s.head? = some '-' then (['-'], s.tail) else ([], s)

/-- Matching `ANKI_META_REGEX = <!--Meta:id=(\d+)(?:;sum=(-?\d+))?-->` at the
start of `s`.  Returns `(group 1, group 2, group 0, text after the match)`.
Greedy `\d+` never needs backtracking here (each character the pattern allows
after the digits is a non-digit), and the optional `(?:...)?` group is tried
first with a fallback, exactly as the backtracking engine behaves. -/
def metaMatchAt (s : Str) : Option (Str × Option Str × Str × Str) :=
  if begins LITID s then
    let r0 := s.drop 12
    let ds := r0.takeWhile Char.isDigit
    let r1 := r0.dropWhile Char.isDigit
    if ds = [] then none
    else if begins LITSUM r1 then
      let r2 := r1.drop 5
      let sg := (signSplit r2).1
      let r3 := (signSplit r2).2
      let ss := r3.takeWhile Char.isDigit
      let r4 := r3.dropWhile Char.isDigit
      if ss ≠ [] && begins LITEND r4 then
        some (ds, some (sg ++ ss), LITID ++ ds ++ LITSUM ++ sg ++ ss ++ LITEND, r4.drop 3)
      else if begins LITEND r1 then
        some (ds, none, LITID ++ ds ++ LITEND, r1.drop 3)
      else none
    else if begins LITEND r1 then
      some (ds, none, LITID ++ ds ++ LITEND, r1.drop 3)
    else none
  else none

/-- Python `re.search(ANKI_META_REGEX, text)`: the leftmost match, as
`(group 1, group 2, group 0)`. -/
def metaSearch : Str → Option (Str × Option Str × Str)
  | [] => none
  | c :: cs =>
    match metaMatchAt (c :: cs) with
    | some (d, os, m, _) => some (d, os, m)
    | none => metaSearch cs

/-- `begins p s = true → p.length ≤ s.length`. -/
theorem begins_len_le : ∀ p s : Str, begins p s = true → p.length ≤ s.length
  | [], _, _ => Nat.zero_le _
  | _ :: _, [], h => by simp [begins] at h
  | p :: ps, c :: cs, h => by
    simp only [begins, Bool.and_eq_true] at h
    simpa [List.length_cons] using Nat.succ_le_succ (begins_len_le ps cs h.2)

/-- `begins p s = true` means `s` is `p` followed by `s.drop p.length`. -/
theorem begins_decomp : ∀ p s : Str, begins p s = true → s = p ++ s.drop p.length
  | [], s, _ => by simp
  | _ :: _, [], h => by simp [begins] at h
  | p :: ps, c :: cs, h => by
    simp only [begins, Bool.and_eq_true, decide_eq_true_eq] at h
    simpa [h.1, List.length_cons] using congrArg (c :: ·) (begins_decomp ps cs h.2)

/-- `begins p (p ++ t)` always holds. -/
theorem begins_append : ∀ p t : Str, begins p (p ++ t) = true
  | [], _ => rfl
  | c :: ps, t => by simp [begins, begins_append ps t]

/-- `begins` is decided by the first character when the heads differ. -/
theorem begins_false_of_head {p s : Str} {a b : Char} (hp : p.head? = some a)
    (hs : s.head? = some b) (hne : a ≠ b) : begins p s = false := by
  cases p with
  | nil => simp at hp
  | cons x xs =>
    cases s with
    | nil => simp [begins]
    | cons y ys =>
      simp only [List.head?_cons, Option.some.injEq] at hp hs
      subst hp; subst hs
      simp [begins, hne]

/-- `signSplit` decomposes its argument. -/
theorem signSplit_decomp (s : Str) : s = (signSplit s).1 ++ (signSplit s).2 := by
  unfold signSplit
  split
  · next h =>
    cases s with
    | nil => simp at h
    | cons c cs =>
      simp only [List.head?_cons, Option.some.injEq] at h
      simp [h]
  · simp

/-- Group-1 / group-2 digit strings: nonempty, all decimal digits. -/
def digitsOk (d : Str) : Prop := d ≠ [] ∧ d.all Char.isDigit = true

/-- Shape of `ANKI_META_REGEX`'s optional group 2: an optional minus sign
followed by a nonempty digit string (or the group absent). -/
def sumOk : Option Str → Prop
  | none => True
  | some sm => (signSplit sm).2 ≠ [] ∧ (signSplit sm).2.all Char.isDigit = true

/-- The exact text a marker with group 1 `d` and optional group 2 `os`
consists of. -/
def mkMarker (d : Str) (os : Option Str) : Str :=
  LITID ++ d ++ (match os with | none => ([] : Str) | some sm => LITSUM ++ sm) ++ LITEND

/-- A string of digits never starts with a minus sign. -/
theorem digits_head_ne_dash : ∀ {l : Str}, l.all Char.isDigit = true → l.head? ≠ some '-'
  | [], _ => by simp
  | a :: as, h => by
    simp only [List.all_cons, Bool.and_eq_true] at h
    simp only [List.head?_cons, ne_eq, Option.some.injEq]
    intro hcontra
    subst hcontra
    exact absurd h.1 (by decide)

/-- `signSplit` on a string with a leading minus sign. -/
theorem signSplit_dash (t : Str) : signSplit ('-' :: t) = (['-'], t) := by
  simp [signSplit]

/-- `signSplit` on a digit string takes nothing. -/
theorem signSplit_digits {l : Str} (h : l.all Char.isDigit = true) : signSplit l = ([], l) := by
  unfold signSplit
  rw [if_neg (digits_head_ne_dash h)]

/-- `l.all p` and the head of `r` failing `p` pin down `takeWhile`/`dropWhile`
on `l ++ r`. -/
theorem takeWhile_all_append {p : Char → Bool} : ∀ l r : Str, l.all p = true →
    (∀ c, r.head? = some c → p c = false) →
    (l ++ r).takeWhile p = l ∧ (l ++ r).dropWhile p = r
  | [], r, _, hr => by
    cases r with
    | nil => simp
    | cons c cs =>
      have := hr c (by simp)
      simp [List.takeWhile, List.dropWhile, this]
  | c :: cs, r, hl, hr => by
    simp only [List.all_cons, Bool.and_eq_true] at hl
    have ih := takeWhile_all_append cs r hl.2 hr
    simp [List.takeWhile, List.dropWhile, hl.1, ih.1, ih.2]

/-- Inversion for a successful `metaMatchAt`: the input is the match followed
by the rest, and the match is the exact marker text for its groups. -/
theorem metaMatchAt_decomp {s d : Str} {os : Option Str} {m rest : Str}
    (h : metaMatchAt s = some (d, os, m, rest)) :
    s = m ++ rest ∧ m = mkMarker d os ∧ digitsOk d ∧ sumOk os := by
  simp only [metaMatchAt] at h
  by_cases h0 : begins LITID s
  case neg => rw [if_neg h0] at h; exact absurd h (by simp)
  rw [if_pos h0] at h
  have hs0 : s = LITID ++ s.drop 12 := by
    simpa [LITID] using begins_decomp LITID s h0
  have hr01 : s.drop 12 =
      (s.drop 12).takeWhile Char.isDigit ++ (s.drop 12).dropWhile Char.isDigit :=
    (List.takeWhile_append_dropWhile Char.isDigit (s.drop 12)).symm
  have hdsdig : ((s.drop 12).takeWhile Char.isDigit).all Char.isDigit = true :=
    List.all_eq_true.2 fun c hc => List.mem_takeWhile_imp hc
  generalize hgds : (s.drop 12).takeWhile Char.isDigit = ds at h hr01 hdsdig
  generalize hgr1 : (s.drop 12).dropWhile Char.isDigit = r1 at h hr01
  generalize hgr0 : s.drop 12 = r0 at hs0 hr01
  clear hgds hgr1 hgr0 h0
  by_cases hd0 : ds = []
  case pos => rw [if_pos hd0] at h; exact absurd h (by simp)
  rw [if_neg hd0] at h
  by_cases hsum : begins LITSUM r1
  · rw [if_pos hsum] at h
    have hr12 : r1 = LITSUM ++ r1.drop 5 := by
      simpa [LITSUM] using begins_decomp LITSUM r1 hsum
    have hr23 : r1.drop 5 = (signSplit (r1.drop 5)).1 ++ (signSplit (r1.drop 5)).2 :=
      signSplit_decomp (r1.drop 5)
    have hr34 : (signSplit (r1.drop 5)).2 =
        ((signSplit (r1.drop 5)).2).takeWhile Char.isDigit ++
          ((signSplit (r1.drop 5)).2).dropWhile Char.isDigit :=
      (List.takeWhile_append_dropWhile Char.isDigit _).symm
    have hssdig : (((signSplit (r1.drop 5)).2).takeWhile Char.isDigit).all Char.isDigit = true :=
      List.all_eq_true.2 fun c hc => List.mem_takeWhile_imp hc
    have hsgcase : (signSplit (r1.drop 5)).1 = [] ∨ (signSplit (r1.drop 5)).1 = ['-'] := by
      unfold signSplit
      by_cases hh : (r1.drop 5).head? = some '-'
      · rw [if_pos hh]; right; rfl
      · rw [if_neg hh]; left; rfl
    generalize hgss : ((signSplit (r1.drop 5)).2).takeWhile Char.isDigit = ss at h hr34 hssdig
    generalize hgr4 : ((signSplit (r1.drop 5)).2).dropWhile Char.isDigit = r4 at h hr34
    generalize hgsg : (signSplit (r1.drop 5)).1 = sg at h hr23 hsgcase
    generalize hgr3 : (signSplit (r1.drop 5)).2 = r3 at h hr23 hr34
    generalize hgr2 : r1.drop 5 = r2 at hr12 hr23
    clear hgss hgr4 hgsg hgr3 hgr2 hsum
    by_cases hok : (decide (ss ≠ []) && begins LITEND r4) = true
    · rw [if_pos hok] at h
      simp only [Bool.and_eq_true, decide_eq_true_eq] at hok
      have hr45 : r4 = LITEND ++ r4.drop 3 := by
        simpa [LITEND] using begins_decomp LITEND r4 hok.2
      generalize hgr5 : r4.drop 3 = r5 at h hr45
      clear hgr5
      simp only [Option.some.injEq, Prod.mk.injEq] at h
      obtain ⟨h1, h2, h3, h4⟩ := h
      subst h1; subst h2; subst h3; subst h4
      refine ⟨?_, ?_, ⟨hd0, hdsdig⟩, ?_⟩
      · rw [hs0, hr01, hr12, hr23, hr34, hr45]
        simp [List.append_assoc]
      · simp [mkMarker, List.append_assoc]
      · rcases hsgcase with hsg1 | hsg1
        · have hcat : sg ++ ss = ss := by rw [hsg1]; simp
          simp only [sumOk, hcat, signSplit_digits hssdig]
          exact ⟨hok.1, hssdig⟩
        · have hcat : sg ++ ss = '-' :: ss := by rw [hsg1]; rfl
          simp only [sumOk, hcat, signSplit_dash]
          exact ⟨hok.1, hssdig⟩
    · rw [if_neg hok] at h
      by_cases hend : begins LITEND r1
      · rw [if_pos hend] at h
        have hr15 : r1 = LITEND ++ r1.drop 3 := by
          simpa [LITEND] using begins_decomp LITEND r1 hend
        -- impossible: r1 starts with both `;sum=` and `-->`
        have e1 : r1.head? = some ';' := by
          rw [hr12]; simp [LITSUM]
        have e2 : r1.head? = some '-' := by
          rw [hr15]; simp [LITEND]
        rw [e1] at e2
        exact absurd (Option.some.inj e2) (by decide)
      · rw [if_neg hend] at h
        exact absurd h (by simp)
  · rw [if_neg hsum] at h
    by_cases hend : begins LITEND r1
    · rw [if_pos hend] at h
      have hr15 : r1 = LITEND ++ r1.drop 3 := by
        simpa [LITEND] using begins_decomp LITEND r1 hend
      generalize hgr5 : r1.drop 3 = r5 at h hr15
      clear hgr5
      simp only [Option.some.injEq, Prod.mk.injEq] at h
      obtain ⟨h1, h2, h3, h4⟩ := h
      subst h1; subst h2; subst h3; subst h4
      refine ⟨?_, ?_, ⟨hd0, hdsdig⟩, trivial⟩
      · rw [hs0, hr01, hr15]
        simp [List.append_assoc]
      · simp [mkMarker, List.append_assoc]
    · rw [if_neg hend] at h
      exact absurd h (by simp)

/-- A successful `metaMatchAt` consumes at least one character. -/
theorem metaMatchAt_rest_len {s d : Str} {os : Option Str} {m rest : Str}
    (h : metaMatchAt s = some (d, os, m, rest)) : rest.length < s.length := by
  obtain ⟨hsm, hm, _, _⟩ := metaMatchAt_decomp h
  have : m ≠ [] := by
    rw [hm]
    simp [mkMarker, LITID]
  rw [hsm]
  cases m with
  | nil => exact absurd rfl this
  | cons c cs => simp [List.length_append, List.length_cons]; omega

/-- Scanner for Python `re.sub(ANKI_META_REGEX, '', text)`: every leftmost
non-overlapping match is removed, scanning resumes after each match.
Fuelled so it reduces definitionally; each step consumes at least one
character, so fuel = the string's length always suffices. -/
def metaSubGo : Nat → Str → Str
  | 0, s => s
  | _ + 1, [] => []
  | fuel + 1, c :: cs =>
    match metaMatchAt (c :: cs) with
    | some (_, _, _, rest) => metaSubGo fuel rest
    | none => c :: metaSubGo fuel cs

/-- Python `re.sub(ANKI_META_REGEX, '', text)`. -/
def metaSub (s : Str) : Str := metaSubGo s.length s

/-- The lazy `(.*?)\]\]` tail of `EMBED_FILENAME_REGEX`: scan for the nearest
`]]`, failing on a newline (`.` does not match `\n`).  Returns the capture and
the text after the `]]`. -/
def findCloseBr : Str → Option (Str × Str)
  | [] => none
  | c :: t =>
    if c = '\n' then none
    else if c = ']' ∧ t.head? = some ']' then some ([], t.tail)
    else (findCloseBr t).map (fun p => (c :: p.1, p.2))

/-- `findCloseBr` consumes at least two characters before the rest. -/
theorem findCloseBr_rest_len : ∀ {s a b : Str}, findCloseBr s = some (a, b) → b.length < s.length := by
  intro s
  induction s with
  | nil => intro a b h; simp [findCloseBr] at h
  | cons c t ih =>
    intro a b h
    rw [findCloseBr] at h
    by_cases h1 : c = '\n'
    · rw [if_pos h1] at h; exact absurd h (by simp)
    rw [if_neg h1] at h
    by_cases h2 : c = ']' ∧ t.head? = some ']'
    · rw [if_pos h2] at h
      simp only [Option.some.injEq, Prod.mk.injEq] at h
      obtain ⟨-, rfl⟩ := h
      cases t with
      | nil => simp at h2
      | cons x xs => simp only [List.tail_cons, List.length_cons]; omega
    · rw [if_neg h2] at h
      match hm : findCloseBr t with
      | none => rw [hm] at h; exact absurd h (by simp)
      | some (a', b') =>
        rw [hm] at h
        simp only [Option.map_some', Option.some.injEq, Prod.mk.injEq] at h
        obtain ⟨-, rfl⟩ := h
        exact Nat.lt_trans (ih hm) (by simp)

/-- Python `str.replace(old, new)` (all occurrences, left to right,
non-overlapping), fuelled so it reduces definitionally; each step consumes
at least one character, so fuel = the string's length always suffices.
Every call site in the program passes a nonempty `old` (a regex match); for
`old = []` this returns `s` unchanged. -/
def replaceAllGo (old new : Str) : Nat → Str → Str
  | 0, s => s
  | _ + 1, [] => []
  | fuel + 1, c :: cs =>
    if old ≠ [] ∧ begins old (c :: cs) = true then
      new ++ replaceAllGo old new fuel ((c :: cs).drop old.length)
    else
      c :: replaceAllGo old new fuel cs

/-- Python `str.replace(old, new)`. -/
def replaceAll (old new s : Str) : Str := replaceAllGo old new s.length s

/-- Python `re.findall(EMBED_FILENAME_REGEX, text)` for
`EMBED_FILENAME_REGEX = !\[\[(.*?)\]\]`: all captures in scan order.  On a
failed attempt at `![[` scanning resumes one character further, as the
backtracking engine does.  Fuelled so it reduces definitionally; each step
consumes at least one character. -/
def embedFindAllGo : Nat → Str → List Str
  | 0, _ => []
  | _ + 1, [] => []
  | fuel + 1, '!' :: '[' :: '[' :: t =>
    match findCloseBr t with
    | some (name, rest) => name :: embedFindAllGo fuel rest
    | none => embedFindAllGo fuel ('[' :: '[' :: t)
  | fuel + 1, _ :: cs => embedFindAllGo fuel cs

/-- Python `re.findall(EMBED_FILENAME_REGEX, text)`. -/
def embedFindAll (s : Str) : List Str := embedFindAllGo s.length s

/-- Python `set.update(iterable)` over a list modelling the set by its
insertion-ordered distinct elements: membership is what the program relies
on (Python's own set iteration order is unspecified). -/
def setUnion (acc xs : List Str) : List Str :=
  xs.foldl (fun a x => if x ∈ a then a else a ++ [x]) acc

/-- Python `int(s)` on the nonempty decimal digit strings the program feeds
it (regex group 1 captures). -/
def pyInt (s : Str) : Nat := s.foldl (fun a c => a * 10 + (c.toNat - 48)) 0

/-- Python `os.path.basename`. -/
def basename (s : Str) : Str := (s.reverse.takeWhile (fun c => c ≠ '/')).reverse

/-- `Flashcard.STATE_INSERT`. -/
def STATE_INSERT : Str := ['I', 'N', 'S', 'E', 'R', 'T']

/-- `Flashcard.STATE_UPDATE`. -/
def STATE_UPDATE : Str := ['U', 'P', 'D', 'A', 'T', 'E']

/-- The `Flashcard` object.  Field defaults mirror `Flashcard.__init__`
(`None` is `none`, the empty media set is `[]`).  `anki_id` always holds the
decimal string form: the update path reads it from regex group 1 (a `str`),
the insert path assigns `str(new_id)`'s content (the f-string in
`update_meta` renders the `int` the same way). -/
structure Flashcard where
  front : Str
  back : Str
  state : Option Str := none
  back_html : Option Str := none
  front_html : Option Str := none
  card_sum : Option Nat := none
  checksum : Option Str := none
  anki_id : Option Str := none
  meta_value : Option Str := none
  medias : List Str := []
  deriving DecidableEq, Repr

/-- `Flashcard._extract_anki_meta`: `(group 1, group 2, group 0)` of the
first `ANKI_META_REGEX` match, or three `None`s. -/
def extract_anki_meta (text : Str) : Option Str × Option Str × Option Str :=
  match metaSearch text with
  | some (d, os, m) => (some d, os, some m)
  | none => (none, none, none)

/-- `Flashcard._generate_card_sum`: CRC-32 of the UTF-8 bytes of
`front + re.sub(ANKI_META_REGEX, '', back).strip()`. -/
def generate_card_sum (front back : Str) : Nat :=
  crc32 (utf8Encode (front ++ pyStrip (metaSub back)))

/-- The media-reference extraction of `Flashcard._extract_medias`:
`medias.update(findall(front)); medias.update(findall(back))`. -/
def extract_medias (c : Flashcard) : Flashcard :=
  { c with medias := setUnion (setUnion c.medias (embedFindAll c.front)) (embedFindAll c.back) }

/-- `Flashcard.analyze`.  `render` stands for `_convert_to_html` (markdown2
plus the image rewrite), whose output no claim depends on.  The unchanged
case (`anki_id` present, `str(card_sum) == checksum`) returns before any
rendering or media extraction. -/
def Flashcard.analyze (render : Str → Str) (c : Flashcard) : Flashcard :=
  let e := extract_anki_meta c.back
  let cs := generate_card_sum c.front c.back
  let c1 := { c with anki_id := e.1, checksum := e.2.1, meta_value := e.2.2,
                     card_sum := some cs }
  if e.1 = none then
    extract_medias { c1 with state := some STATE_INSERT,
                             front_html := some (render c1.front),
                             back_html := some (render c1.back) }
  else if e.2.1 ≠ some (natRepr cs) then
    extract_medias { c1 with state := some STATE_UPDATE,
                             front_html := some (render c1.front),
                             back_html := some (render c1.back) }
  else
    c1

/-- Python exceptions the model distinguishes. -/
inductive PyErr
  | typeError
  | netError
  deriving DecidableEq, Repr

/-- Decidable equality on raised-or-returned results (for concrete runs). -/
instance {e a : Type} [DecidableEq e] [DecidableEq a] : DecidableEq (Except e a) :=
  fun x y =>
    match x, y with
    | .ok u, .ok v =>
      if h : u = v then isTrue (by rw [h]) else isFalse (by intro hc; cases hc; exact h rfl)
    | .error u, .error v =>
      if h : u = v then isTrue (by rw [h]) else isFalse (by intro hc; cases hc; exact h rfl)
    | .ok _, .error _ => isFalse (by intro hc; cases hc)
    | .error _, .ok _ => isFalse (by intro hc; cases hc)

/-- `Flashcard.update_meta`.  For a card with `state = None` the original
document is returned untouched.  Otherwise the new marker text is built from
`anki_id` and `card_sum` (an f-string renders `None` as the text `None`) and
`origin.replace(old, new)` is applied — but when no marker was extracted
(`_meta_value is None`, the insert case) `str.replace` receives `None` as its
first argument and raises `TypeError`. -/
def Flashcard.update_meta (c : Flashcard) (origin : Str) : Except PyErr Str :=
  if c.state = none then .ok origin
  else
    let idStr : Str := match c.anki_id with
      | some s => s
      | none => ['N', 'o', 'n', 'e']
    let sumStr : Str := match c.card_sum with
      | some n => natRepr n
      | none => ['N', 'o', 'n', 'e']
    let newMeta : Str := LITID ++ idStr ++ LITSUM ++ sumStr ++ LITEND
    match c.meta_value with
    | none => .error .typeError
    | some old => .ok (replaceAll old newMeta origin)

/-- The loop body of `MarkdownFlashcardExtractor._parse_flashcards`: one
`Flashcard` per block whose `FLASHCARD_REGEX` split has exactly two parts. -/
def parseBlocks : List Str → List Flashcard
  | [] => []
  | b :: bs =>
    match splitFlash b with
    | [f, bk] => { front := pyStrip f, back := pyStrip bk } :: parseBlocks bs
    | _ => parseBlocks bs

/-- `MarkdownFlashcardExtractor._parse_flashcards` (the file read of
`extract_flashcards` is abstracted away: `content` is the document text). -/
def parse_flashcards (content : Str) : List Flashcard :=
  parseBlocks (splitSep content)

/-- JSON values appearing under the `result` key of the AnkiConnect
responses the program reads: a note id, `null`, or a list of deck names. -/
inductive JVal
  | num (n : Nat)
  | nullv
  | strs (l : List Str)
  deriving DecidableEq, Repr

/-- One AnkiConnect request, as `AnkiConnect.invoke` issues it. -/
inductive RCall
  | deckNames
  | createDeck (deck : Str)
  | updateNoteFields (id : Nat) (front back : Str)
  | addNote (deck model front back : Str)
  | storeMediaFile (filename data : Str)
  deriving DecidableEq, Repr

/-- The HTTP endpoint's state: an oracle giving the i-th call's outcome, the
number of calls made, and the log of attempted calls in order. -/
structure Net where
  oracle : Nat → Except Unit (Option JVal)
  k : Nat := 0
  calls : List RCall := []

/-- `AnkiConnect.invoke`: posts the request (the attempt is logged), then
either raises the transport exception or returns the parsed response's
`result` entry (`none` = no `result` key). -/
def invoke (net : Net) (call : RCall) : Except PyErr (Option JVal) × Net :=
  let net' : Net := { net with k := net.k + 1, calls := net.calls ++ [call] }
  match net.oracle net.k with
  | .error _ => (.error .netError, net')
  | .ok r => (.ok r, net')

/-- The `AnkiConnect` client object (endpoint URL abstracted into `Net`). -/
structure AnkiConnect where
  deck_name : Str
  model_name : Str

/-- `AnkiConnect.deck_names`: the `result` list if the response has a
`result` key, else `[]`.  (The oracle shapes `deckNames` responses as
`.strs`; a differently-shaped `result` is not produced by the remote.) -/
def deck_names (net : Net) : Except PyErr (List Str) × Net :=
  match invoke net .deckNames with
  | (.error e, net') => (.error e, net')
  | (.ok (some (.strs l)), net') => (.ok l, net')
  | (.ok (some _), net') => (.ok [], net')
  | (.ok none, net') => (.ok [], net')

/-- `AnkiConnect.create_deck`: declared `def create_deck(self)`.  `extraArgs`
counts positional arguments at a call site beyond `self`; Python raises
`TypeError` before the body runs when any are passed. -/
def create_deck (ac : AnkiConnect) (extraArgs : Nat) (net : Net) :
    Except PyErr (Option JVal) × Net :=
  if extraArgs ≠ 0 then (.error .typeError, net)
  else invoke net (.createDeck ac.deck_name)

/-- `AnkiConnect.update_note`. -/
def update_note (net : Net) (note_id : Nat) (front back : Str) :
    Except PyErr (Option JVal) × Net :=
  invoke net (.updateNoteFields note_id front back)

/-- `AnkiConnect.add_note`. -/
def add_note (ac : AnkiConnect) (net : Net) (front back : Str) :
    Except PyErr (Option JVal) × Net :=
  invoke net (.addNote ac.deck_name ac.model_name front back)

/-- `AnkiConnect.add_media_file`. -/
def add_media_file (net : Net) (filename data : Str) :
    Except PyErr (Option JVal) × Net :=
  invoke net (.storeMediaFile (basename filename) data)

/-- `CardMarker.sync_card`: updates send the note and discard the response;
inserts send the note and store `result` as the new `anki_id` when the
response carries a `result` key (`null` leaves `anki_id` as `None`). -/
def sync_card (ac : AnkiConnect) (net : Net) (c : Flashcard) :
    Except PyErr Flashcard × Net :=
  if c.state = some STATE_UPDATE then
    match update_note net (pyInt (c.anki_id.getD [])) (c.front_html.getD []) (c.back_html.getD []) with
    | (.error e, net') => (.error e, net')
    | (.ok _, net') => (.ok c, net')
  else if c.state = some STATE_INSERT then
    match add_note ac net (c.front_html.getD []) (c.back_html.getD []) with
    | (.error e, net') => (.error e, net')
    | (.ok (some (.num n)), net') => (.ok { c with anki_id := some (natRepr n) }, net')
    | (.ok (some .nullv), net') => (.ok { c with anki_id := none }, net')
    | (.ok (some (.strs _)), net') => (.ok c, net')
    | (.ok none, net') => (.ok c, net')
  else (.ok c, net)

/-- The per-card loop of `CardMarker.make_cards`: cards whose `analyze` left
`state = None` are skipped (only logged); others are synced.  A raised
exception aborts the loop (there is no handler). -/
def syncAll (ac : AnkiConnect) (net : Net) : List Flashcard → Except PyErr (List Flashcard) × Net
  | [] => (.ok [], net)
  | c :: cs =>
    if c.state = none then
      match syncAll ac net cs with
      | (.ok cs', net') => (.ok (c :: cs'), net')
      | (.error e, net') => (.error e, net')
    else
      match sync_card ac net c with
      | (.error e, net') => (.error e, net')
      | (.ok c', net') =>
        match syncAll ac net' cs with
        | (.ok cs', net'') => (.ok (c' :: cs'), net'')
        | (.error e, net'') => (.error e, net'')

/-- `CardMarker.make_cards` (the file read is abstracted: `content` is the
document text; analysis is pure, so analyzing every card up front equals the
source's analyze-then-sync interleaving observably). -/
def make_cards (render : Str → Str) (ac : AnkiConnect) (net : Net) (content : Str) :
    Except PyErr (List Flashcard) × Net :=
  syncAll ac net ((parse_flashcards content).map (Flashcard.analyze render))

/-- The media loop of `CardMarker.sync_medias`: unresolvable attachments are
skipped (logged), resolvable ones are pushed. -/
def mediasLoop (attach : Str → Option Str) (net : Net) : List Str → Except PyErr Unit × Net
  | [] => (.ok (), net)
  | m :: ms =>
    match attach m with
    | none => mediasLoop attach net ms
    | some b64 =>
      match add_media_file net m b64 with
      | (.error e, net') => (.error e, net')
      | (.ok _, net') => mediasLoop attach net' ms

/-- `CardMarker.sync_medias`: the union of all cards' media sets, then the
push loop (an empty union returns at once). -/
def sync_medias (attach : Str → Option Str) (net : Net) (cards : List Flashcard) :
    Except PyErr Unit × Net :=
  let medias := cards.foldl (fun acc c => setUnion acc c.medias) []
  if medias = [] then (.ok (), net)
  else mediasLoop attach net medias

/-- The fold of `update_content`'s per-card `update_meta` loop. -/
def foldMeta : List Flashcard → Str → Except PyErr Str
  | [], d => .ok d
  | c :: cs, d =>
    match c.update_meta d with
    | .error e => .error e
    | .ok d' => foldMeta cs d'

/-- `update_content` (the file write is abstracted): the accumulated document
and whether it differs from the original, i.e. whether the file is written. -/
def update_content (cards : List Flashcard) (original : Str) : Except PyErr (Str × Bool) :=
  match foldMeta cards original with
  | .error e => .error e
  | .ok data => .ok (data, data ≠ original)

/-- One document's pass of `main`'s loop: `make_cards`, `sync_medias`,
`update_content`. -/
def processDoc (render : Str → Str) (ac : AnkiConnect) (attach : Str → Option Str)
    (net : Net) (content : Str) : Except PyErr (Str × Bool) × Net :=
  match make_cards render ac net content with
  | (.error e, net') => (.error e, net')
  | (.ok cards, net') =>
    match sync_medias attach net' cards with
    | (.error e, net'') => (.error e, net'')
    | (.ok _, net'') =>
      match update_content cards content with
      | .error e => (.error e, net'')
      | .ok r => (.ok r, net'')

/-- `main`'s loop over the folder's documents. -/
def processDocs (render : Str → Str) (ac : AnkiConnect) (attach : Str → Option Str)
    (net : Net) : List Str → Except PyErr (List (Str × Bool)) × Net
  | [] => (.ok [], net)
  | d :: ds =>
    match processDoc render ac attach net d with
    | (.error e, net') => (.error e, net')
    | (.ok r, net') =>
      match processDocs render ac attach net' ds with
      | (.ok rs, net'') => (.ok (r :: rs), net'')
      | (.error e, net'') => (.error e, net'')

/-- `prepare_deck`: when the deck is missing it calls
`anki_connect.create_deck(deck_name)` — one positional argument to a method
declared with none. -/
def prepare_deck (deck_name : Str) (ac : AnkiConnect) (net : Net) : Except PyErr Unit × Net :=
  match deck_names net with
  | (.error e, net1) => (.error e, net1)
  | (.ok decks, net1) =>
    if deck_name ∈ decks then (.ok (), net1)
    else
      match create_deck ac 1 net1 with
      | (.error e, net2) => (.error e, net2)
      | (.ok _, net2) => (.ok (), net2)

/-- `main` after setup: `prepare_deck`, then the document loop. -/
def mainModel (render : Str → Str) (attach : Str → Option Str) (deck_name model_name : Str)
    (net : Net) (docs : List Str) : Except PyErr (List (Str × Bool)) × Net :=
  let ac : AnkiConnect := { deck_name := deck_name, model_name := model_name }
  match prepare_deck deck_name ac net with
  | (.error e, net1) => (.error e, net1)
  | (.ok _, net1) => processDocs render ac attach net1 docs

/-- `natToDigitChar` of a value below ten is a decimal digit character. -/
theorem natToDigitChar_isDigit {k : Nat} (h : k < 10) : (natToDigitChar k).isDigit = true := by
  interval_cases k <;> decide

/-- `natReprGo` ignores the exact fuel once it is at least the number
(`n` bounds the digit count). -/
theorem natReprGo_fuel : ∀ (bound n : Nat), n ≤ bound → ∀ (f1 f2 : Nat) (acc : Str),
    n ≤ f1 → n ≤ f2 → natReprGo f1 n acc = natReprGo f2 n acc := by
  intro bound
  induction bound with
  | zero =>
    intro n hn f1 f2 acc h1 h2
    have hn0 : n = 0 := Nat.le_zero.1 hn
    subst hn0
    cases f1 <;> cases f2 <;> simp [natReprGo]
  | succ b ih =>
    intro n hn f1 f2 acc h1 h2
    by_cases hn0 : n = 0
    · subst hn0
      cases f1 <;> cases f2 <;> simp [natReprGo]
    · cases f1 with
      | zero => exact absurd h1 (by omega)
      | succ a =>
        cases f2 with
        | zero => exact absurd h2 (by omega)
        | succ e =>
          simp only [natReprGo, if_neg hn0]
          have hdiv : n / 10 < n := Nat.div_lt_self (by omega) (by omega)
          exact ih (n / 10) (by omega) a e _ (by omega) (by omega)

/-- `natReprGo` prepends a digit string to its accumulator, nonempty for a
nonzero argument. -/
theorem natReprGo_spec : ∀ (bound n : Nat), n ≤ bound → ∀ acc : Str, ∃ d : Str,
    natReprGo n n acc = d ++ acc ∧ d.all Char.isDigit = true ∧ (n ≠ 0 → d ≠ []) := by
  intro bound
  induction bound with
  | zero =>
    intro n hn acc
    have hn0 : n = 0 := Nat.le_zero.1 hn
    subst hn0
    exact ⟨[], by simp [natReprGo], by simp, by simp⟩
  | succ b ih =>
    intro n hn acc
    by_cases hn0 : n = 0
    · subst hn0
      exact ⟨[], by simp [natReprGo], by simp, by simp⟩
    · obtain ⟨m, rfl⟩ : ∃ m, n = m + 1 := ⟨n - 1, by omega⟩
      have hdiv : (m + 1) / 10 < m + 1 := Nat.div_lt_self (by omega) (by omega)
      have hstep : natReprGo (m + 1) (m + 1) acc =
          natReprGo m ((m + 1) / 10) (natToDigitChar ((m + 1) % 10) :: acc) := by
        simp [natReprGo, hn0]
      have hfuel : natReprGo m ((m + 1) / 10) (natToDigitChar ((m + 1) % 10) :: acc) =
          natReprGo ((m + 1) / 10) ((m + 1) / 10) (natToDigitChar ((m + 1) % 10) :: acc) :=
        natReprGo_fuel b ((m + 1) / 10) (by omega) m ((m + 1) / 10) _ (by omega) (by omega)
      obtain ⟨d', h1, h2, -⟩ := ih ((m + 1) / 10) (by omega) (natToDigitChar ((m + 1) % 10) :: acc)
      refine ⟨d' ++ [natToDigitChar ((m + 1) % 10)], ?_, ?_, by simp⟩
      · rw [hstep, hfuel, h1]
        simp
      · simp only [List.all_append, h2, Bool.true_and, List.all_cons, List.all_nil,
          Bool.and_true]
        exact natToDigitChar_isDigit (Nat.mod_lt _ (by omega))

/-- `str(n)` is a nonempty string of decimal digits. -/
theorem natRepr_ok (n : Nat) : digitsOk (natRepr n) := by
  unfold natRepr
  by_cases h : n = 0
  · rw [if_pos h]; exact ⟨by simp, by decide⟩
  · rw [if_neg h]
    obtain ⟨d, hd, hdig, hne⟩ := natReprGo_spec n n (Nat.le_refl n) []
    rw [hd]
    simp only [List.append_nil]
    exact ⟨hne h, hdig⟩

/-- Xor keeps 32-bit values 32-bit. -/
theorem xor_lt_32 {x y : Nat} (hx : x < 2 ^ 32) (hy : y < 2 ^ 32) : x ^^^ y < 2 ^ 32 :=
  Nat.bitwise_lt hx hy

/-- One CRC-32 bit round keeps the state below `2^32`. -/
theorem crc32Round_lt {c : Nat} (h : c < 2 ^ 32) : crc32Round c < 2 ^ 32 := by
  unfold crc32Round
  have hdiv : c / 2 < 2 ^ 32 := Nat.lt_of_le_of_lt (Nat.div_le_self c 2) h
  split
  · exact xor_lt_32 hdiv (by norm_num)
  · exact hdiv

/-- Iterated CRC-32 rounds keep the state below `2^32`. -/
theorem crc32Rounds_lt : ∀ (k : Nat) {c : Nat}, c < 2 ^ 32 → crc32Rounds k c < 2 ^ 32
  | 0, _, h => h
  | k + 1, _, h => crc32Rounds_lt k (crc32Round_lt h)

/-- Absorbing a 32-bit value keeps the CRC-32 state below `2^32`. -/
theorem crc32Byte_lt {c b : Nat} (hc : c < 2 ^ 32) (hb : b < 2 ^ 32) :
    crc32Byte c b < 2 ^ 32 :=
  crc32Rounds_lt 8 (xor_lt_32 hc hb)

/-- The CRC-32 fold stays below `2^32`. -/
theorem crc32_foldl_lt : ∀ (bs : List Nat) {c : Nat}, c < 2 ^ 32 →
    (∀ b ∈ bs, b < 2 ^ 32) → bs.foldl crc32Byte c < 2 ^ 32
  | [], _, hc, _ => hc
  | b :: bs, _, hc, hb => by
    rw [List.foldl_cons]
    exact crc32_foldl_lt bs (crc32Byte_lt hc (hb b (by simp))) fun x hx => hb x (by simp [hx])

/-- Every UTF-8 byte value is below `2^32` (in fact below 256). -/
theorem utf8Char_lt (c : Char) : ∀ x ∈ utf8Char c, x < 2 ^ 32 := by
  intro x hx
  have hval : c.toNat < 2 ^ 32 := c.val.val.isLt
  simp only [utf8Char] at hx
  split at hx
  · simp only [List.mem_singleton] at hx; omega
  · split at hx
    · next h1 h2 =>
      have : c.toNat / 64 < 32 := Nat.div_lt_of_lt_mul (by omega)
      have : c.toNat % 64 < 64 := Nat.mod_lt _ (by omega)
      simp only [List.mem_cons, List.mem_singleton, List.not_mem_nil, or_false] at hx
      rcases hx with rfl | rfl <;> omega
    · split at hx
      · next h1 h2 h3 =>
        have : c.toNat / 4096 < 16 := Nat.div_lt_of_lt_mul (by omega)
        have : c.toNat / 64 % 64 < 64 := Nat.mod_lt _ (by omega)
        have : c.toNat % 64 < 64 := Nat.mod_lt _ (by omega)
        simp only [List.mem_cons, List.not_mem_nil, or_false] at hx
        rcases hx with rfl | rfl | rfl <;> omega
      · next h1 h2 h3 =>
        have : c.toNat / 262144 < 16384 := Nat.div_lt_of_lt_mul (by omega)
        have : c.toNat / 4096 % 64 < 64 := Nat.mod_lt _ (by omega)
        have : c.toNat / 64 % 64 < 64 := Nat.mod_lt _ (by omega)
        have : c.toNat % 64 < 64 := Nat.mod_lt _ (by omega)
        simp only [List.mem_cons, List.not_mem_nil, or_false] at hx
        rcases hx with rfl | rfl | rfl | rfl <;> omega

/-- Every byte of a UTF-8 encoding is below `2^32`. -/
theorem utf8Encode_lt (s : Str) : ∀ x ∈ utf8Encode s, x < 2 ^ 32 := by
  intro x hx
  unfold utf8Encode at hx
  obtain ⟨l, hl, hxl⟩ := List.mem_flatten.1 hx
  obtain ⟨c, -, rfl⟩ := List.mem_map.1 hl
  exact utf8Char_lt c x hxl

/-- `crc32` of any byte list of 32-bit values is a 32-bit value. -/
theorem crc32_lt (bs : List Nat) (h : ∀ b ∈ bs, b < 2 ^ 32) : crc32 bs < 2 ^ 32 :=
  xor_lt_32 (crc32_foldl_lt bs (by norm_num) h) (by norm_num)

/-- The computed card fingerprint is a 32-bit value. -/
theorem generate_card_sum_lt (f b : Str) : generate_card_sum f b < 2 ^ 32 :=
  crc32_lt _ (utf8Encode_lt _)

/-- `Flashcard(front, back)` as `_parse_flashcards` constructs cards. -/
def newFlashcard (front back : Str) : Flashcard := { front := front, back := back }

/-- C9.  Fingerprint definition: for every card the computed fingerprint is
the CRC-32 checksum (`crc32`) of the UTF-8 bytes of the front text
concatenated with the back text after the marker substring is removed
(`metaSub`) and surrounding whitespace is trimmed (`pyStrip`); being a 32-bit
checksum it lies in `[0, 2^32)` (it is a `Nat`, so nonnegative by type). -/
theorem c9_fingerprint_definition (f b : Str) :
    generate_card_sum f b = crc32 (utf8Encode (f ++ pyStrip (metaSub b))) ∧
    generate_card_sum f b < 2 ^ 32 :=
  ⟨rfl, generate_card_sum_lt f b⟩

/-- C5.  State classification by `Flashcard.analyze`: no marker in the back
text (`extract_anki_meta` group 1 absent) gives `STATE_INSERT` (create); a
marker whose stored fingerprint equals the canonical decimal rendering of the
freshly computed fingerprint (Python compares `str(card_sum) != checksum`)
gives the unchanged state `None`; a marker whose stored fingerprint differs
(including an absent `sum` group) gives `STATE_UPDATE`. -/
theorem c5_state_classification (render : Str → Str) (f b : Str) :
    ((Flashcard.analyze render (newFlashcard f b)).state = some STATE_INSERT ↔
      (extract_anki_meta b).1 = none) ∧
    ((Flashcard.analyze render (newFlashcard f b)).state = none ↔
      (extract_anki_meta b).1 ≠ none ∧
      (extract_anki_meta b).2.1 = some (natRepr (generate_card_sum f b))) ∧
    ((Flashcard.analyze render (newFlashcard f b)).state = some STATE_UPDATE ↔
      (extract_anki_meta b).1 ≠ none ∧
      (extract_anki_meta b).2.1 ≠ some (natRepr (generate_card_sum f b))) := by
  have hne : STATE_INSERT ≠ STATE_UPDATE := by decide
  simp only [Flashcard.analyze, newFlashcard, extract_medias]
  by_cases h1 : (extract_anki_meta b).1 = none
  · rw [if_pos h1]
    simp [h1, hne]
  · rw [if_neg h1]
    by_cases h2 : (extract_anki_meta b).2.1 ≠ some (natRepr (generate_card_sum f b))
    · rw [if_pos h2]
      have hne' : STATE_UPDATE ≠ STATE_INSERT := by decide
      simp [h1, h2, hne']
    · rw [if_neg h2]
      push_neg at h2
      simp [h1, h2, hne]
/-- Literal lengths. -/
theorem LITID_len : LITID.length = 12 := rfl

/-- Literal lengths. -/
theorem LITSUM_len : LITSUM.length = 5 := rfl

/-- Literal lengths. -/
theorem LITEND_len : LITEND.length = 3 := rfl

/-- Drop a known-length leading chunk of an append. -/
theorem drop_left_of_len {p : Str} {n : Nat} (h : p.length = n) (t : Str) :
    (p ++ t).drop n = t := by
  subst h
  exact List.drop_left p t

/-- The head of `LITEND ++ z` is a minus sign, not a digit. -/
theorem litend_head_notdigit (z : Str) : ∀ c : Char, (LITEND ++ z).head? = some c →
    Char.isDigit c = false := by
  intro c hc
  simp only [LITEND] at hc
  simp only [List.cons_append, List.head?_cons, Option.some.injEq] at hc
  subst hc
  decide

/-- The sign split of `sm ++ t` mirrors the sign split of a `sumOk` string
`sm` (nonempty after the sign, all digits). -/
theorem signSplit_append {sm : Str} (hsne : (signSplit sm).2 ≠ [])
    (hsdig : (signSplit sm).2.all Char.isDigit = true) (t : Str) :
    signSplit (sm ++ t) = ((signSplit sm).1, (signSplit sm).2 ++ t) := by
  cases sm with
  | nil => simp [signSplit] at hsne
  | cons a u =>
    by_cases hneg : a = '-'
    · subst hneg
      simp [signSplit]
    · have h1 : signSplit (a :: u) = ([], a :: u) := by
        unfold signSplit
        rw [if_neg (by simp [hneg])]
      have h2 : signSplit (a :: u ++ t) = ([], a :: u ++ t) := by
        unfold signSplit
        rw [if_neg (by simp [hneg])]
      rw [h1] at hsne hsdig ⊢
      simp only [List.cons_append] at h2
      simp [h2]

/-- Matching at the start of exact marker text succeeds with exactly that
marker's groups, whatever follows. -/
theorem mkMarker_matchAt {d : Str} {os : Option Str} (hd : digitsOk d) (hos : sumOk os)
    (z : Str) : metaMatchAt (mkMarker d os ++ z) = some (d, os, mkMarker d os, z) := by
  obtain ⟨hdne, hddig⟩ := hd
  rcases os with - | sm
  · -- no sum group
    have hmk : mkMarker d none = LITID ++ (d ++ LITEND) := by
      unfold mkMarker
      simp [List.append_assoc]
    have hshape : mkMarker d none ++ z = LITID ++ (d ++ (LITEND ++ z)) := by
      rw [hmk]; simp [List.append_assoc]
    rw [hshape]
    simp only [metaMatchAt]
    rw [if_pos (begins_append LITID (d ++ (LITEND ++ z)))]
    rw [drop_left_of_len LITID_len]
    obtain ⟨htw, hdw⟩ := takeWhile_all_append d (LITEND ++ z) hddig (litend_head_notdigit z)
    rw [htw, hdw, if_neg hdne]
    have hsumF : begins LITSUM (LITEND ++ z) = false := by
      apply begins_false_of_head (a := ';') (b := '-')
      · decide
      · simp [LITEND]
      · decide
    rw [hsumF]
    simp only [Bool.false_eq_true, if_false]
    rw [if_pos (begins_append LITEND z)]
    rw [drop_left_of_len LITEND_len]
    rw [hmk]
    simp [List.append_assoc]
  · -- sum group present
    obtain ⟨hsne, hsdig⟩ := hos
    have hsmdec : (signSplit sm).1 ++ (signSplit sm).2 = sm := (signSplit_decomp sm).symm
    have hmk : mkMarker d (some sm) = LITID ++ (d ++ (LITSUM ++ (sm ++ LITEND))) := by
      simp [mkMarker, List.append_assoc]
    have hshape : mkMarker d (some sm) ++ z = LITID ++ (d ++ (LITSUM ++ (sm ++ (LITEND ++ z)))) := by
      rw [hmk]; simp [List.append_assoc]
    rw [hshape]
    simp only [metaMatchAt]
    rw [if_pos (begins_append LITID _)]
    rw [drop_left_of_len LITID_len]
    have hhead : ∀ c : Char, (LITSUM ++ (sm ++ (LITEND ++ z))).head? = some c →
        Char.isDigit c = false := by
      intro c hc
      simp only [LITSUM] at hc
      simp only [List.cons_append, List.head?_cons, Option.some.injEq] at hc
      subst hc
      decide
    obtain ⟨htw, hdw⟩ := takeWhile_all_append d _ hddig hhead
    rw [htw, hdw, if_neg hdne]
    rw [if_pos (begins_append LITSUM _)]
    rw [drop_left_of_len LITSUM_len]
    rw [signSplit_append hsne hsdig (LITEND ++ z)]
    obtain ⟨htw2, hdw2⟩ := takeWhile_all_append ((signSplit sm).2) (LITEND ++ z) hsdig
      (litend_head_notdigit z)
    simp only [htw2, hdw2]
    have hcond : (decide ((signSplit sm).2 ≠ []) && begins LITEND (LITEND ++ z)) = true := by
      simp [hsne, begins_append]
    rw [if_pos hcond]
    rw [drop_left_of_len LITEND_len]
    rw [hmk]
    simp only [Option.some.injEq, Prod.mk.injEq]
    refine ⟨trivial, ?_, ?_, trivial⟩
    · exact hsmdec
    · conv_rhs => rw [← hsmdec]
      simp [List.append_assoc]

/-- No match can start at a character other than `<`. -/
theorem metaMatchAt_none_head {c : Char} (h : c ≠ '<') (cs : Str) :
    metaMatchAt (c :: cs) = none := by
  simp only [metaMatchAt]
  rw [if_neg ?hne]
  case hne =>
    simp only [LITID, begins, Bool.and_eq_true, decide_eq_true_eq]
    intro hcontra
    exact h hcontra.1.symm

/-- `metaSubGo` ignores the exact fuel once it is at least the string's
length. -/
theorem metaSubGo_fuel : ∀ (bound : Nat) (s : Str), s.length ≤ bound →
    ∀ f1 f2 : Nat, s.length ≤ f1 → s.length ≤ f2 → metaSubGo f1 s = metaSubGo f2 s := by
  intro bound
  induction bound with
  | zero =>
    intro s hs f1 f2 h1 h2
    have hnil : s = [] := List.eq_nil_of_length_eq_zero (Nat.le_zero.1 hs)
    subst hnil
    cases f1 <;> cases f2 <;> simp [metaSubGo]
  | succ b ih =>
    intro s hs f1 f2 h1 h2
    cases s with
    | nil => cases f1 <;> cases f2 <;> simp [metaSubGo]
    | cons c cs =>
      simp only [List.length_cons] at hs h1 h2
      cases f1 with
      | zero => exact absurd h1 (by omega)
      | succ a =>
        cases f2 with
        | zero => exact absurd h2 (by omega)
        | succ e =>
          simp only [metaSubGo]
          rcases hm : metaMatchAt (c :: cs) with - | ⟨d, os, m, rest⟩
          · exact congrArg (c :: ·) (ih cs (by omega) a e (by omega) (by omega))
          · have hlen := metaMatchAt_rest_len hm
            simp only [List.length_cons] at hlen
            exact ih rest (by omega) a e (by omega) (by omega)

/-- Unfolding `metaSub` when no match starts here. -/
theorem metaSub_cons_none {c : Char} {cs : Str} (h : metaMatchAt (c :: cs) = none) :
    metaSub (c :: cs) = c :: metaSub cs := by
  unfold metaSub
  simp only [List.length_cons, metaSubGo, h]

/-- Unfolding `metaSub` at a match: the match is removed and scanning resumes
after it. -/
theorem metaSub_cons_some {c : Char} {cs d : Str} {os : Option Str} {m rest : Str}
    (h : metaMatchAt (c :: cs) = some (d, os, m, rest)) :
    metaSub (c :: cs) = metaSub rest := by
  unfold metaSub
  simp only [List.length_cons, metaSubGo, h]
  have hlen := metaMatchAt_rest_len h
  simp only [List.length_cons] at hlen
  exact metaSubGo_fuel cs.length rest (by omega) cs.length rest.length (by omega) (by omega)

/-- `metaSub` of the empty string. -/
theorem metaSub_nil : metaSub [] = [] := rfl

/-- Searching never finds anything inside `<`-free text. -/
theorem metaSearch_append_noLt {x : Str} (hx : '<' ∉ x) (s : Str) :
    metaSearch (x ++ s) = metaSearch s := by
  induction x with
  | nil => rfl
  | cons c cs ih =>
    have hc : c ≠ '<' := fun hh => hx (by simp [hh])
    have hcs : '<' ∉ cs := fun hh => hx (by simp [hh])
    simp only [List.cons_append, metaSearch, metaMatchAt_none_head hc]
    exact ih hcs

/-- A `<`-free string has no match at all. -/
theorem metaSearch_noLt {s : Str} (hs : '<' ∉ s) : metaSearch s = none := by
  have := metaSearch_append_noLt hs ([] : Str)
  simpa using this

/-- `metaSearch` at the start of exact marker text. -/
theorem metaSearch_marker {d : Str} {os : Option Str} (hd : digitsOk d) (hos : sumOk os)
    (z : Str) : metaSearch (mkMarker d os ++ z) = some (d, os, mkMarker d os) := by
  have hm := mkMarker_matchAt hd hos z
  have hcons : mkMarker d os ++ z = '<' :: ((mkMarker d os).tail ++ z) := by
    rcases os with - | sm <;> rfl
  rw [hcons] at hm ⊢
  simp only [metaSearch, hm]

/-- `metaSub` passes `<`-free text through. -/
theorem metaSub_append_noLt {x : Str} (hx : '<' ∉ x) (s : Str) :
    metaSub (x ++ s) = x ++ metaSub s := by
  induction x with
  | nil => rfl
  | cons c cs ih =>
    have hc : c ≠ '<' := fun hh => hx (by simp [hh])
    have hcs : '<' ∉ cs := fun hh => hx (by simp [hh])
    rw [List.cons_append, metaSub_cons_none (metaMatchAt_none_head hc _), ih hcs]
    rfl

/-- `metaSub` leaves a `<`-free string unchanged. -/
theorem metaSub_noLt {s : Str} (hs : '<' ∉ s) : metaSub s = s := by
  have := metaSub_append_noLt hs ([] : Str)
  simpa [metaSub_nil] using this

/-- `metaSub` removes exact marker text at the front and goes on. -/
theorem metaSub_marker {d : Str} {os : Option Str} (hd : digitsOk d) (hos : sumOk os)
    (z : Str) : metaSub (mkMarker d os ++ z) = metaSub z := by
  have hm := mkMarker_matchAt hd hos z
  have hcons : mkMarker d os ++ z = '<' :: ((mkMarker d os).tail ++ z) := by
    rcases os with - | sm <;> rfl
  rw [hcons] at hm ⊢
  exact metaSub_cons_some hm

/-- `_extract_anki_meta` on a back text whose single marker sits in a
`<`-free context recovers exactly the marker's groups. -/
theorem extract_anki_meta_ctx {x : Str} (hx : '<' ∉ x) {d : Str} {os : Option Str}
    (hd : digitsOk d) (hos : sumOk os) (y : Str) :
    extract_anki_meta (x ++ (mkMarker d os ++ y)) = (some d, os, some (mkMarker d os)) := by
  unfold extract_anki_meta
  rw [metaSearch_append_noLt hx, metaSearch_marker hd hos]

/-- `re.sub(ANKI_META_REGEX, '', ·)` on such a back text removes exactly the
marker. -/
theorem metaSub_ctx {x y : Str} (hx : '<' ∉ x) (hy : '<' ∉ y) {d : Str} {os : Option Str}
    (hd : digitsOk d) (hos : sumOk os) :
    metaSub (x ++ (mkMarker d os ++ y)) = x ++ y := by
  rw [metaSub_append_noLt hx, metaSub_marker hd hos, metaSub_noLt hy]

/-- The fingerprint of such a back text is the fingerprint of the text with
the marker deleted. -/
theorem generate_card_sum_ctx {x y : Str} (hx : '<' ∉ x) (hy : '<' ∉ y) {d : Str}
    {os : Option Str} (hd : digitsOk d) (hos : sumOk os) (f : Str) :
    generate_card_sum f (x ++ (mkMarker d os ++ y)) =
      crc32 (utf8Encode (f ++ pyStrip (x ++ y))) := by
  unfold generate_card_sum
  rw [metaSub_ctx hx hy hd hos]

/-- Deciding `digitsOk` (for concrete witnesses). -/
instance (d : Str) : Decidable (digitsOk d) := by
  unfold digitsOk
  exact inferInstance

/-- Deciding `sumOk` (for concrete witnesses). -/
instance (os : Option Str) : Decidable (sumOk os) := by
  rcases os with - | sm
  · exact isTrue trivial
  · unfold sumOk
    exact inferInstance

/-- C4.  Marker round-trip: the marker text `update_meta` writes for a card
with id string `id` and fingerprint `n` is exactly
`<!--Meta:id=` ++ id ++ `;sum=` ++ str(n) ++ `-->` (that is,
`mkMarker id (some (natRepr n))`), and parsing any rewritten document whose
text left of the marker is `<`-free recovers exactly that id and fingerprint
pair: decode after encode is the identity on the pair. -/
theorem c4_marker_roundtrip (id : Str) (n : Nat) (x y : Str) (hid : digitsOk id)
    (hx : '<' ∉ x) :
    mkMarker id (some (natRepr n)) = LITID ++ id ++ LITSUM ++ natRepr n ++ LITEND ∧
    extract_anki_meta (x ++ (mkMarker id (some (natRepr n)) ++ y)) =
      (some id, some (natRepr n), some (mkMarker id (some (natRepr n)))) := by
  have hos : sumOk (some (natRepr n)) := by
    have h := natRepr_ok n
    simp only [sumOk, signSplit_digits h.2]
    exact ⟨h.1, h.2⟩
  constructor
  · simp [mkMarker, List.append_assoc]
  · exact extract_anki_meta_ctx hx hid hos y

/-- Witness for C4 at a concrete id, fingerprint and document context. -/
theorem c4_marker_roundtrip_witness :
    digitsOk ("42".toList) ∧ '<' ∉ ("back text ".toList) ∧
    (mkMarker ("42".toList) (some (natRepr 12345)) =
      LITID ++ ("42".toList) ++ LITSUM ++ natRepr 12345 ++ LITEND ∧
    extract_anki_meta (("back text ".toList) ++
        (mkMarker ("42".toList) (some (natRepr 12345)) ++ (" tail".toList))) =
      (some ("42".toList), some (natRepr 12345),
        some (mkMarker ("42".toList) (some (natRepr 12345))))) :=
  ⟨by decide, by decide,
    c4_marker_roundtrip ("42".toList) 12345 ("back text ".toList) (" tail".toList)
      (by decide) (by decide)⟩

/-- C8.  Unchanged cards are no-ops: a card whose back text carries a marker
(`extract_anki_meta` group 1 present) whose stored fingerprint equals the
rendering of the computed one is left with `state = None` by `analyze`; no
front/back text is rendered, no media reference is extracted, `sync_card`
issues no remote call and returns the network state untouched, and
`update_meta` returns every document unchanged. -/
theorem c8_unchanged_noop (render : Str → Str) (f b : Str)
    (h1 : (extract_anki_meta b).1 ≠ none)
    (h2 : (extract_anki_meta b).2.1 = some (natRepr (generate_card_sum f b))) :
    (Flashcard.analyze render (newFlashcard f b)).state = none ∧
    (Flashcard.analyze render (newFlashcard f b)).front_html = none ∧
    (Flashcard.analyze render (newFlashcard f b)).back_html = none ∧
    (Flashcard.analyze render (newFlashcard f b)).medias = [] ∧
    (∀ origin, (Flashcard.analyze render (newFlashcard f b)).update_meta origin = .ok origin) ∧
    (∀ ac net, sync_card ac net (Flashcard.analyze render (newFlashcard f b)) =
      (.ok (Flashcard.analyze render (newFlashcard f b)), net)) := by
  have heq : Flashcard.analyze render (newFlashcard f b) =
      { front := f, back := b, card_sum := some (generate_card_sum f b),
        checksum := (extract_anki_meta b).2.1, anki_id := (extract_anki_meta b).1,
        meta_value := (extract_anki_meta b).2.2 } := by
    simp only [Flashcard.analyze, newFlashcard]
    rw [if_neg h1, if_neg (fun hne => hne h2)]
  rw [heq]
  refine ⟨rfl, rfl, rfl, rfl, fun origin => ?_, fun ac net => ?_⟩
  · simp [Flashcard.update_meta]
  · simp [sync_card, STATE_UPDATE, STATE_INSERT]

/-- Witness for C8: a concrete unchanged card (marker fingerprint equal to
the computed CRC-32 of the front text, the stripped marker-free back being
empty). -/
theorem c8_unchanged_noop_witness :
    (extract_anki_meta ("<!--Meta:id=1;sum=1993550816-->".toList)).1 ≠ none ∧
    (extract_anki_meta ("<!--Meta:id=1;sum=1993550816-->".toList)).2.1 =
      some (natRepr (generate_card_sum ("f".toList) ("<!--Meta:id=1;sum=1993550816-->".toList))) ∧
    (Flashcard.analyze (fun s => s)
      (newFlashcard ("f".toList) ("<!--Meta:id=1;sum=1993550816-->".toList))).state = none :=
  ⟨by decide, by decide,
    (c8_unchanged_noop (fun s => s) ("f".toList) ("<!--Meta:id=1;sum=1993550816-->".toList)
      (by decide) (by decide)).1⟩

/-- Identity renderer used by concrete runs (the claims do not depend on the
renderer's output). -/
def renderId : Str → Str := fun s => s

/-- An attachment index resolving nothing. -/
def attachNone : Str → Option Str := fun _ => none

/-- A concrete AnkiConnect client. -/
def acTest : AnkiConnect := { deck_name := ("D".toList), model_name := ("Basic".toList) }

/-- A network state over a given oracle, before any call. -/
def netOf (oracle : Nat → Except Unit (Option JVal)) : Net := { oracle := oracle }

/-- An endpoint that answers every call with note id 777. -/
def oracleOK : Nat → Except Unit (Option JVal) := fun _ => .ok (some (.num 777))

/-- A single-card create document ("Q" front, "A" back, no marker). -/
def DOC_C2 : Str := ("Q\n#flashcard\nA".toList)

/-- C2 (code bug).  Create-case marker insertion: running the pipeline on a
one-card document with no marker, against a remote that assigns id 777,
aborts with `TypeError` — `update_meta` passes `_meta_value = None` to
`str.replace` instead of inserting the new marker at any anchor. -/
theorem c2_create_case_crashes :
    (processDoc renderId acTest attachNone (netOf oracleOK) DOC_C2).1 =
      .error PyErr.typeError ∧
    ((parse_flashcards DOC_C2).map (Flashcard.analyze renderId)).map Flashcard.state =
      [some STATE_INSERT] := by
  constructor
  · decide
  · decide

/-- C10.  For a deck name not in the remote's deck list, `prepare_deck` does
not create the deck: `create_deck(deck_name)` passes one positional argument
to a method declared with none, so Python raises `TypeError` and `main`
aborts with only the `deckNames` call made — before any document is
processed. -/
theorem c10_missing_deck_type_error (render : Str → Str) (attach : Str → Option Str)
    (deck_name model_name : Str) (docs : List Str)
    (oracle : Nat → Except Unit (Option JVal)) (decks : List Str)
    (h1 : oracle 0 = .ok (some (.strs decks))) (h2 : deck_name ∉ decks) :
    (mainModel render attach deck_name model_name { oracle := oracle } docs).1 =
      .error PyErr.typeError ∧
    (mainModel render attach deck_name model_name { oracle := oracle } docs).2.calls =
      [RCall.deckNames] := by
  have hinv : invoke { oracle := oracle } .deckNames =
      (.ok (some (.strs decks)),
        { oracle := oracle, k := 1, calls := [RCall.deckNames] }) := by
    simp [invoke, h1]
  have hdn : deck_names { oracle := oracle } =
      (.ok decks, { oracle := oracle, k := 1, calls := [RCall.deckNames] }) := by
    unfold deck_names
    rw [hinv]
  have hpd : prepare_deck deck_name { deck_name := deck_name, model_name := model_name }
      { oracle := oracle } =
      (.error PyErr.typeError, { oracle := oracle, k := 1, calls := [RCall.deckNames] }) := by
    unfold prepare_deck
    rw [hdn]
    dsimp only
    rw [if_neg h2]
    rfl
  simp only [mainModel]
  rw [hpd]
  exact ⟨rfl, rfl⟩

/-- Witness for C10: a concrete missing deck aborts the concrete run. -/
theorem c10_missing_deck_witness :
    (fun _ : Nat => (.ok (some (.strs [("Default".toList)])) : Except Unit (Option JVal))) 0 =
      .ok (some (.strs [("Default".toList)])) ∧
    ("Mine".toList) ∉ [("Default".toList)] ∧
    (mainModel renderId attachNone ("Mine".toList) ("Basic".toList)
      { oracle := fun _ => .ok (some (.strs [("Default".toList)])) } [DOC_C2]).1 =
      .error PyErr.typeError :=
  ⟨rfl, by decide,
    (c10_missing_deck_type_error renderId attachNone ("Mine".toList) ("Basic".toList)
      [DOC_C2] (fun _ => .ok (some (.strs [("Default".toList)]))) [("Default".toList)]
      rfl (by decide)).1⟩

/-- The marker used by the C6 counterexample. -/
def MRK6 : Str := ("<!--Meta:id=7;sum=1-->".toList)

/-- The marker-shaped base text of the C6 counterexample. -/
def BASE6 : Str := ("<!--Meta:id=7-->".toList)

/-- Counterexample to C6 as stated: two back texts that differ only in the
position at which the marker `MRK6` is embedded into the same base text
(position 0 versus position 9) produce different fingerprints, because the
base text itself contains marker-shaped text and `re.sub` removes a
different set of matches in each. -/
theorem c6_counterexample :
    BASE6.take 9 ++ BASE6.drop 9 = BASE6 ∧
    generate_card_sum [] (MRK6 ++ BASE6) ≠
      generate_card_sum [] (BASE6.take 9 ++ (MRK6 ++ BASE6.drop 9)) :=
  ⟨List.take_append_drop 9 BASE6, by decide⟩

/-- C6 (amended).  Fingerprint stability: the fingerprint is computed by a
pure function (identical across repeated computations by reflexivity), and
for back texts whose text outside the embedded marker is `<`-free (contains
no marker-shaped text), the fingerprint is independent of the embedded
marker's content and position: any two decompositions with the same
marker-free remainder give the same fingerprint. -/
theorem c6_fingerprint_stability (f x1 y1 x2 y2 d1 d2 : Str) (os1 os2 : Option Str)
    (hx1 : '<' ∉ x1) (hy1 : '<' ∉ y1) (hx2 : '<' ∉ x2) (hy2 : '<' ∉ y2)
    (hd1 : digitsOk d1) (hos1 : sumOk os1) (hd2 : digitsOk d2) (hos2 : sumOk os2)
    (hsame : x1 ++ y1 = x2 ++ y2) :
    generate_card_sum f (x1 ++ (mkMarker d1 os1 ++ y1)) =
      generate_card_sum f (x2 ++ (mkMarker d2 os2 ++ y2)) := by
  rw [generate_card_sum_ctx hx1 hy1 hd1 hos1, generate_card_sum_ctx hx2 hy2 hd2 hos2, hsame]

/-- Witness for C6 (amended) at concrete texts: marker `id=3` at one position
versus marker `id=44;sum=-5` at another, same remainder text. -/
theorem c6_fingerprint_stability_witness :
    generate_card_sum ("F".toList)
        (("ab ".toList) ++ (mkMarker ("3".toList) none ++ (" cd".toList))) =
      generate_card_sum ("F".toList)
        (("ab  cd".toList) ++ (mkMarker ("44".toList) (some ("-5".toList)) ++ [])) :=
  c6_fingerprint_stability ("F".toList) ("ab ".toList) (" cd".toList) ("ab  cd".toList) []
    ("3".toList) ("44".toList) none (some ("-5".toList))
    (by decide) (by decide) (by decide) (by decide) (by decide) (by decide) (by decide)
    (by decide) (by decide)

/-- C7's example document. -/
def DOC_C7 : Str := ("A\n---\nfront1\n#flashcard\nback1\n---\nnotacard".toList)

/-- The per-block card rule of `_parse_flashcards`, as a `filterMap`. -/
def blockToCard (b : Str) : Option Flashcard :=
  match splitFlash b with
  | [f, bk] => some (newFlashcard (pyStrip f) (pyStrip bk))
  | _ => none

/-- The parse loop keeps exactly the blocks whose tag split has two parts. -/
theorem parseBlocks_filterMap : ∀ bs : List Str, parseBlocks bs = bs.filterMap blockToCard := by
  intro bs
  induction bs with
  | nil => rfl
  | cons b bs ih =>
    rcases hsf : splitFlash b with - | ⟨p1, - | ⟨p2, - | ⟨p3, ps⟩⟩⟩ <;>
      simp [parseBlocks, List.filterMap_cons, blockToCard, hsf, ih, newFlashcard]

/-- C7.  Extraction correctness: the example document yields exactly one card
(`front1`/`back1`); in general a block yields a card exactly when splitting
it at the case-insensitive `#flashcard` tag gives precisely two parts (the
stripped parts becoming front and back), and every other block is silently
discarded — `parse_flashcards` is the `filterMap` of that per-block rule over
the `---` split. -/
theorem c7_extraction_correctness :
    parse_flashcards DOC_C7 = [newFlashcard ("front1".toList) ("back1".toList)] ∧
    ∀ content : Str, parse_flashcards content = (splitSep content).filterMap blockToCard :=
  ⟨by decide, fun _ => parseBlocks_filterMap _⟩

/-- An endpoint whose second call (index 1) raises a transport exception;
every other call succeeds. -/
def oracleC3 : Nat → Except Unit (Option JVal) := fun i =>
  if i = 1 then .error () else .ok (some (.num 9))

/-- A three-card document, every card in the update state (stored sum 0
differs from each computed sum). -/
def DOC_C3 : Str :=
  ("f1\n#flashcard\nb1 <!--Meta:id=1;sum=0-->\n---\nf2\n#flashcard\nb2 <!--Meta:id=2;sum=0-->\n---\nf3\n#flashcard\nb3 <!--Meta:id=3;sum=0-->".toList)

/-- Counterexample to C3 as stated: when the remote call for card 2 of 3
raises, the run aborts with the exception — card 3 is never synced (only two
calls were attempted), no marker is rewritten (the error propagates before
`update_content`), and a following document is never processed. -/
theorem c3_counterexample :
    (((parse_flashcards DOC_C3).map (Flashcard.analyze renderId)).map Flashcard.state =
      [some STATE_UPDATE, some STATE_UPDATE, some STATE_UPDATE]) ∧
    (processDoc renderId acTest attachNone (netOf oracleC3) DOC_C3).1 =
      .error PyErr.netError ∧
    (processDoc renderId acTest attachNone (netOf oracleC3) DOC_C3).2.calls.length = 2 ∧
    (processDocs renderId acTest attachNone (netOf oracleC3) [DOC_C3, DOC_C2]).1 =
      .error PyErr.netError ∧
    (processDocs renderId acTest attachNone (netOf oracleC3) [DOC_C3, DOC_C2]).2.calls.length = 2 := by
  refine ⟨by decide, by decide, by decide, by decide, by decide⟩

/-- The card loop over a concatenation runs the first part, then the second
from the reached network state; an exception in the first part aborts the
whole loop. -/
theorem syncAll_append (ac : AnkiConnect) : ∀ (cs1 cs2 : List Flashcard) (net : Net),
    syncAll ac net (cs1 ++ cs2) =
      match syncAll ac net cs1 with
      | (.ok l1, net1) =>
        match syncAll ac net1 cs2 with
        | (.ok l2, net2) => (.ok (l1 ++ l2), net2)
        | (.error e, net2) => (.error e, net2)
      | (.error e, net1) => (.error e, net1) := by
  intro cs1
  induction cs1 with
  | nil =>
    intro cs2 net
    simp only [List.nil_append, syncAll]
    rcases hs : syncAll ac net cs2 with ⟨r, net'⟩
    rcases r with e | l <;> simp
  | cons c cs ih =>
    intro cs2 net
    simp only [List.cons_append, syncAll, List.append_eq]
    by_cases hc : c.state = none
    · rw [if_pos hc, if_pos hc]
      rw [ih cs2 net]
      rcases h1 : syncAll ac net cs with ⟨r1, net1⟩
      rcases r1 with e | l1
      · rfl
      · dsimp only
        rcases h2 : syncAll ac net1 cs2 with ⟨r2, net2⟩
        rcases r2 with e2 | l2 <;> rfl
    · rw [if_neg hc, if_neg hc]
      rcases hsc : sync_card ac net c with ⟨rc, netc⟩
      rcases rc with e | c'
      · rfl
      · dsimp only
        rw [ih cs2 netc]
        rcases h1 : syncAll ac netc cs with ⟨r1, net1⟩
        rcases r1 with e | l1
        · rfl
        · dsimp only
          rcases h2 : syncAll ac net1 cs2 with ⟨r2, net2⟩
          rcases r2 with e2 | l2 <;> rfl

/-- C3 (amended).  A raised remote exception aborts processing instead of
isolating the failure: when the cards before `c` sync cleanly and `c`'s
remote call raises `e`, the whole per-document card loop stops at `c` with
`e` (the cards after `c` are not synced, and the exception propagates before
`update_content` runs, so no marker is rewritten); and a document whose pass
raises `e` stops the whole multi-document loop with `e` (the remaining
documents are not processed and add no remote calls). -/
theorem c3_failure_aborts_run (ac : AnkiConnect) (net : Net) (cs1 : List Flashcard)
    (c : Flashcard) (cs2 : List Flashcard) (e : PyErr) (l1 : List Flashcard)
    (h1 : (syncAll ac net cs1).1 = .ok l1) (hc : c.state ≠ none)
    (he : (sync_card ac (syncAll ac net cs1).2 c).1 = .error e) :
    syncAll ac net (cs1 ++ c :: cs2) =
      (.error e, (sync_card ac (syncAll ac net cs1).2 c).2) ∧
    (∀ (render : Str → Str) (attach : Str → Option Str) (d : Str) (ds : List Str)
      (net0 : Net), (processDoc render ac attach net0 d).1 = .error e →
      (processDocs render ac attach net0 (d :: ds)).1 = .error e ∧
      (processDocs render ac attach net0 (d :: ds)).2 =
        (processDoc render ac attach net0 d).2) := by
  constructor
  · rw [syncAll_append ac cs1 (c :: cs2) net]
    rcases hs1 : syncAll ac net cs1 with ⟨r1, net1⟩
    rw [hs1] at h1 he
    replace h1 : r1 = .ok l1 := h1
    subst h1
    dsimp only at he ⊢
    simp only [syncAll]
    rw [if_neg hc]
    rcases hsc : sync_card ac net1 c with ⟨rc, netc⟩
    rw [hsc] at he
    replace he : rc = .error e := he
    subst he
    rfl
  · intro render attach d ds net0 hd
    simp only [processDocs]
    rcases hpd : processDoc render ac attach net0 d with ⟨r, net'⟩
    rw [hpd] at hd
    replace hd : r = .error e := hd
    subst hd
    exact ⟨rfl, rfl⟩

/-- Witness for C3 (amended): card 2 of the concrete three-card document
raises, so the loop aborts right there. -/
theorem c3_failure_aborts_run_witness :
    (syncAll acTest (netOf oracleC3)
        ((((parse_flashcards DOC_C3).map (Flashcard.analyze renderId)).take 1) ++
          ((((parse_flashcards DOC_C3).map (Flashcard.analyze renderId)).get? 1).getD
              (newFlashcard [] [])) ::
          (((parse_flashcards DOC_C3).map (Flashcard.analyze renderId)).drop 2))).1 =
      .error PyErr.netError := by
  have happ := c3_failure_aborts_run acTest (netOf oracleC3)
    (((parse_flashcards DOC_C3).map (Flashcard.analyze renderId)).take 1)
    ((((parse_flashcards DOC_C3).map (Flashcard.analyze renderId)).get? 1).getD
      (newFlashcard [] []))
    (((parse_flashcards DOC_C3).map (Flashcard.analyze renderId)).drop 2)
    PyErr.netError
    (((parse_flashcards DOC_C3).map (Flashcard.analyze renderId)).take 1)
    (by decide) (by decide) (by decide)
  rw [happ.1]

/-- The C1 counterexample document: two update cards whose markers carry the
same id and the same stale fingerprint, so the marker text is duplicated. -/
def DOC_C1 : Str :=
  ("f1\n#flashcard\nb1 <!--Meta:id=1;sum=0-->\n---\nf2\n#flashcard\nb2 <!--Meta:id=1;sum=0-->".toList)

/-- The document the first pass writes: card 1's `update_meta` replaces every
occurrence of the duplicated marker text, so card 2's marker now carries card
1's fingerprint. -/
def DOC_C1_AFTER : Str :=
  ("f1\n#flashcard\nb1 <!--Meta:id=1;sum=481685883-->\n---\nf2\n#flashcard\nb2 <!--Meta:id=1;sum=481685883-->".toList)

/-- The document the second pass writes (both markers rewritten again, now to
card 2's fingerprint). -/
def DOC_C1_SECOND : Str :=
  ("f1\n#flashcard\nb1 <!--Meta:id=1;sum=2281315992-->\n---\nf2\n#flashcard\nb2 <!--Meta:id=1;sum=2281315992-->".toList)

/-- Counterexample to C1 as stated: on a document whose two cards share the
same marker text, a first run succeeds and rewrites the document, but the
second run on that unedited output classifies card 2 as `update` (not
`unchanged`) and rewrites the document again (`update_content` reports a
difference, so the file is written): the sync is not idempotent. -/
theorem c1_counterexample :
    (processDoc renderId acTest attachNone (netOf oracleOK) DOC_C1).1 =
      .ok (DOC_C1_AFTER, true) ∧
    (processDoc renderId acTest attachNone (netOf oracleOK) DOC_C1_AFTER).1 =
      .ok (DOC_C1_SECOND, true) ∧
    ((parse_flashcards DOC_C1_AFTER).map (Flashcard.analyze renderId)).map Flashcard.state =
      [none, some STATE_UPDATE] := by
  refine ⟨by decide, by decide, by decide⟩

/-- `Char.ofNat` of a valid scalar value has that value. -/
theorem toNat_ofNat_valid {n : Nat} (h : n.isValidChar) : (Char.ofNat n).toNat = n := by
  unfold Char.ofNat
  rw [dif_pos h]
  rfl

/-- Only `#` itself lowercases to `#`. -/
theorem toLower_hash {c : Char} (h : c.toLower = '#') : c = '#' := by
  by_cases hc : 65 ≤ c.toNat ∧ c.toNat ≤ 90
  · exfalso
    have hdef : c.toLower = Char.ofNat (c.toNat + 32) := by
      simp only [Char.toLower]
      rw [if_pos ⟨hc.1, hc.2⟩]
    rw [hdef] at h
    have hvalid : (c.toNat + 32).isValidChar := Or.inl (by omega)
    have hval := congrArg Char.toNat h
    rw [toNat_ofNat_valid hvalid] at hval
    have h35 : ('#' : Char).toNat = 35 := rfl
    omega
  · have hdef : c.toLower = c := by
      simp only [Char.toLower]
      rw [if_neg hc]
    rw [hdef] at h
    exact h

/-- `splitSepGo` ignores the exact fuel once it is at least the string's
length. -/
theorem splitSepGo_fuel : ∀ (bound : Nat) (s : Str), s.length ≤ bound →
    ∀ (f1 f2 : Nat) (acc : Str), s.length ≤ f1 → s.length ≤ f2 →
      splitSepGo f1 s acc = splitSepGo f2 s acc := by
  intro bound
  induction bound with
  | zero =>
    intro s hs f1 f2 acc h1 h2
    have hnil : s = [] := List.eq_nil_of_length_eq_zero (Nat.le_zero.1 hs)
    subst hnil
    cases f1 <;> cases f2 <;> simp [splitSepGo]
  | succ b ih =>
    intro s hs f1 f2 acc h1 h2
    cases s with
    | nil => cases f1 <;> cases f2 <;> simp [splitSepGo]
    | cons c cs =>
      simp only [List.length_cons] at hs h1 h2
      cases f1 with
      | zero => exact absurd h1 (by omega)
      | succ a =>
        cases f2 with
        | zero => exact absurd h2 (by omega)
        | succ e =>
          simp only [splitSepGo]
          by_cases hb : begins SEPS (c :: cs) = true
          · rw [if_pos hb, if_pos hb]
            have hlen : (cs.drop 2).length ≤ cs.length := by
              rw [List.length_drop]
              omega
            exact congrArg (acc.reverse :: ·) (ih (cs.drop 2) (by omega) a e [] (by omega) (by omega))
          · rw [if_neg hb, if_neg hb]
            exact ih cs (by omega) a e (c :: acc) (by omega) (by omega)

/-- `splitFlashGo` ignores the exact fuel once it is at least the string's
length. -/
theorem splitFlashGo_fuel : ∀ (bound : Nat) (s : Str), s.length ≤ bound →
    ∀ (f1 f2 : Nat) (acc : Str), s.length ≤ f1 → s.length ≤ f2 →
      splitFlashGo f1 s acc = splitFlashGo f2 s acc := by
  intro bound
  induction bound with
  | zero =>
    intro s hs f1 f2 acc h1 h2
    have hnil : s = [] := List.eq_nil_of_length_eq_zero (Nat.le_zero.1 hs)
    subst hnil
    cases f1 <;> cases f2 <;> simp [splitFlashGo]
  | succ b ih =>
    intro s hs f1 f2 acc h1 h2
    cases s with
    | nil => cases f1 <;> cases f2 <;> simp [splitFlashGo]
    | cons c cs =>
      simp only [List.length_cons] at hs h1 h2
      cases f1 with
      | zero => exact absurd h1 (by omega)
      | succ a =>
        cases f2 with
        | zero => exact absurd h2 (by omega)
        | succ e =>
          simp only [splitFlashGo]
          by_cases hb : ciBegins TAGL (c :: cs) = true
          · rw [if_pos hb, if_pos hb]
            have hlen : ((cs.drop 9).dropWhile pyIsSpace).length ≤ cs.length := by
              have h1 := dropWhile_len_le pyIsSpace (cs.drop 9)
              have h2 : (cs.drop 9).length ≤ cs.length := by
                rw [List.length_drop]; omega
              omega
            exact congrArg (acc.reverse :: ·)
              (ih ((cs.drop 9).dropWhile pyIsSpace) (by omega) a e [] (by omega) (by omega))
          · rw [if_neg hb, if_neg hb]
            exact ih cs (by omega) a e (c :: acc) (by omega) (by omega)

/-- `replaceAllGo` ignores the exact fuel once it is at least the string's
length. -/
theorem replaceAllGo_fuel (old new : Str) : ∀ (bound : Nat) (s : Str), s.length ≤ bound →
    ∀ (f1 f2 : Nat), s.length ≤ f1 → s.length ≤ f2 →
      replaceAllGo old new f1 s = replaceAllGo old new f2 s := by
  intro bound
  induction bound with
  | zero =>
    intro s hs f1 f2 h1 h2
    have hnil : s = [] := List.eq_nil_of_length_eq_zero (Nat.le_zero.1 hs)
    subst hnil
    cases f1 <;> cases f2 <;> simp [replaceAllGo]
  | succ b ih =>
    intro s hs f1 f2 h1 h2
    cases s with
    | nil => cases f1 <;> cases f2 <;> simp [replaceAllGo]
    | cons c cs =>
      simp only [List.length_cons] at hs h1 h2
      cases f1 with
      | zero => exact absurd h1 (by omega)
      | succ a =>
        cases f2 with
        | zero => exact absurd h2 (by omega)
        | succ e =>
          simp only [replaceAllGo]
          by_cases hb : old ≠ [] ∧ begins old (c :: cs) = true
          · rw [if_pos hb, if_pos hb]
            have hpos : 1 ≤ old.length := List.length_pos.2 hb.1
            have hlen : ((c :: cs).drop old.length).length ≤ cs.length := by
              rw [List.length_drop, List.length_cons]
              omega
            exact congrArg (new ++ ·)
              (ih ((c :: cs).drop old.length) (by omega) a e (by omega) (by omega))
          · rw [if_neg hb, if_neg hb]
            exact congrArg (c :: ·) (ih cs (by omega) a e (by omega) (by omega))

/-- Unfolding one step of `containsSub`. -/
theorem containsSub_cons (pat : Str) (c : Char) (cs : Str) :
    containsSub pat (c :: cs) = (begins pat (c :: cs) || containsSub pat cs) := rfl

/-- `begins SEPS` on a string of length at least three inspects only the
first three characters. -/
theorem begins_seps3 (x y z : Char) (w : Str) :
    begins SEPS (x :: y :: z :: w) =
      (decide ('-' = x) && (decide ('-' = y) && decide ('-' = z))) := by
  simp [SEPS, begins]

/-- `begins SEPS` fails on strings of length two or less. -/
theorem begins_seps2 (x y : Char) : begins SEPS [x, y] = false := by
  simp [SEPS, begins]

/-- `begins SEPS` fails on strings of length two or less. -/
theorem begins_seps1 (x : Char) : begins SEPS [x] = false := by
  simp [SEPS, begins]

/-- If `---` occurs somewhere in `s` then `s` contains a dash. -/
theorem dash_of_containsSub_seps : ∀ {s : Str}, containsSub SEPS s = true → '-' ∈ s := by
  intro s
  induction s with
  | nil => intro h; exact absurd h (by decide)
  | cons c cs ih =>
    intro h
    rw [containsSub_cons, Bool.or_eq_true] at h
    rcases h with h | h
    · cases cs with
      | nil => exact absurd h (by simpa using begins_seps1 c)
      | cons c1 cs1 =>
        cases cs1 with
        | nil => exact absurd h (by simpa using begins_seps2 c c1)
        | cons c2 cs2 =>
          rw [begins_seps3] at h
          simp only [Bool.and_eq_true, decide_eq_true_eq] at h
          simp [← h.1]
    · exact List.mem_cons_of_mem c (ih h)

/-- `---` does not occur in `a ++ b` when it occurs in neither part and the
junction has a non-dash character on at least one side. -/
theorem seps_append : ∀ (a b : Str), containsSub SEPS a = false →
    containsSub SEPS b = false →
    (a.getLast? ≠ some '-' ∨ b.head? ≠ some '-') →
    containsSub SEPS (a ++ b) = false := by
  intro a
  induction a with
  | nil => intro b ha hb hj; simpa using hb
  | cons c a' ih =>
    intro b ha hb hj
    rw [containsSub_cons] at ha
    have ha2 : containsSub SEPS a' = false := by
      rcases Bool.or_eq_false_iff.1 ha with ⟨-, h⟩
      exact h
    have hb1 : begins SEPS (c :: a') = false := (Bool.or_eq_false_iff.1 ha).1
    have hj' : a'.getLast? ≠ some '-' ∨ b.head? ≠ some '-' := by
      rcases a' with - | ⟨c1, a''⟩
      · exact Or.inl (by simp)
      · rcases hj with hj | hj
        · exact Or.inl (by simpa [List.getLast?_cons_cons] using hj)
        · exact Or.inr hj
    rw [List.cons_append, containsSub_cons, ih b ha2 hb hj', Bool.or_false]
    rcases a' with - | ⟨c1, a''⟩
    · -- a = [c]
      simp only [List.nil_append]
      rcases b with - | ⟨b0, b'⟩
      · exact begins_seps1 c
      rcases b' with - | ⟨b1, b''⟩
      · exact begins_seps2 c b0
      · rcases hj with hj | hj
        · have hc : c ≠ '-' := by simpa using hj
          rw [begins_seps3, decide_eq_false (fun hh : '-' = c => hc hh.symm), Bool.false_and]
        · have hb0 : b0 ≠ '-' := by simpa using hj
          rw [begins_seps3, decide_eq_false (fun hh : '-' = b0 => hb0 hh.symm),
            Bool.false_and, Bool.and_false]
    rcases a'' with - | ⟨c2, a3r⟩
    · -- a = [c, c1]
      simp only [List.cons_append, List.nil_append]
      rcases b with - | ⟨b0, b'⟩
      · exact begins_seps2 c c1
      rcases hj with hj | hj
      · have hc1 : c1 ≠ '-' := by simpa using hj
        rw [begins_seps3, decide_eq_false (fun hh : '-' = c1 => hc1 hh.symm),
          Bool.false_and, Bool.and_false]
      · have hb0 : b0 ≠ '-' := by simpa using hj
        rw [begins_seps3, decide_eq_false (fun hh : '-' = b0 => hb0 hh.symm),
          Bool.and_false, Bool.and_false]
    · -- a = c :: c1 :: c2 :: a3r : the first three characters lie in a
      simp only [List.cons_append]
      rw [begins_seps3]
      rw [begins_seps3] at hb1
      exact hb1

/-- No-separator and junction-edge language for readable hypotheses. -/
def noSep (s : Str) : Prop := containsSub SEPS s = false

/-- The last character is not a dash (vacuous for the empty string). -/
def lastOk (s : Str) : Prop := s.getLast? ≠ some '-'

/-- No character of `s` lowercases to `#` (so the `(?i)#flashcard` tag cannot
match anywhere inside `s`). -/
def noHash (s : Str) : Prop := ∀ c ∈ s, c.toLower ≠ '#'

/-- `s` contains no `<` (so no marker-shaped text). -/
def noLt (s : Str) : Prop := '<' ∉ s

/-- The head character, if any, is not whitespace. -/
def headNoWs (s : Str) : Prop := ∀ c, s.head? = some c → pyIsSpace c = false

/-- The head of a marker is `<`. -/
theorem mkMarker_head (d : Str) (os : Option Str) : (mkMarker d os).head? = some '<' := by
  rcases os with - | sm <;> rfl

/-- Markers are nonempty. -/
theorem mkMarker_ne_nil (d : Str) (os : Option Str) : mkMarker d os ≠ [] := by
  intro h
  have hh := mkMarker_head d os
  rw [h] at hh
  exact absurd hh (by simp)

/-- The last character of a marker is `>`. -/
theorem mkMarker_last (d : Str) (os : Option Str) : (mkMarker d os).getLast? = some '>' := by
  unfold mkMarker
  rw [List.getLast?_append_of_ne_nil _ (by simp [LITEND])]
  rfl

/-- The marker without the optional group, flattened. -/
theorem mkMarker_none_eq (d : Str) : mkMarker d none = LITID ++ (d ++ LITEND) := by
  simp [mkMarker, List.append_assoc]

/-- The marker with the optional group, flattened. -/
theorem mkMarker_some_eq (d sm : Str) :
    mkMarker d (some sm) = LITID ++ (d ++ (LITSUM ++ (sm ++ LITEND))) := by
  simp [mkMarker, List.append_assoc]

/-- Digit strings contain no dash. -/
theorem no_dash_of_digits {l : Str} (h : l.all Char.isDigit = true) : '-' ∉ l := by
  intro hmem
  have hdig : ∀ c ∈ l, Char.isDigit c = true := by simpa using h
  have := hdig '-' hmem
  exact absurd this (by decide)

/-- Digit strings contain no `<`. -/
theorem no_lt_of_digits {l : Str} (h : l.all Char.isDigit = true) : '<' ∉ l := by
  intro hmem
  have hdig : ∀ c ∈ l, Char.isDigit c = true := by simpa using h
  have := hdig '<' hmem
  exact absurd this (by decide)

/-- A digit string does not end in a dash. -/
theorem digits_last_ne_dash {l : Str} (h : l.all Char.isDigit = true) :
    l.getLast? ≠ some '-' := by
  intro hl
  have hmem : '-' ∈ l := by
    cases hgl : l.getLast? with
    | none => rw [hgl] at hl; exact absurd hl (by simp)
    | some c =>
      rw [hgl] at hl
      have hc : c = '-' := by simpa using hl
      subst hc
      exact List.mem_of_mem_getLast? hgl
  exact no_dash_of_digits h hmem

/-- A dash-free string is separator-free. -/
theorem noSep_of_no_dash {s : Str} (h : '-' ∉ s) : noSep s := by
  unfold noSep
  cases hc : containsSub SEPS s with
  | false => rfl
  | true => exact absurd (dash_of_containsSub_seps hc) h

/-- The sign part of a well-shaped optional-group string is empty or a
single dash. -/
theorem signSplit_fst (s : Str) : (signSplit s).1 = [] ∨ (signSplit s).1 = ['-'] := by
  unfold signSplit
  by_cases h : s.head? = some '-'
  · rw [if_pos h]; right; rfl
  · rw [if_neg h]; left; rfl

/-- A well-shaped optional-group string (optional sign, then digits) is
separator-free. -/
theorem sm_noSep {sm : Str} (hos : sumOk (some sm)) : noSep sm := by
  obtain ⟨hsne, hsdig⟩ := hos
  have hdec := signSplit_decomp sm
  have hds : noSep (signSplit sm).2 := noSep_of_no_dash (no_dash_of_digits hsdig)
  rcases signSplit_fst sm with hsg | hsg
  · rw [hdec, hsg, List.nil_append]
    exact hds
  · rw [hdec, hsg]
    apply seps_append _ _ (by decide) hds
    right
    exact digits_head_ne_dash hsdig

/-- A well-shaped optional-group string does not end in a dash. -/
theorem sm_last_ne_dash {sm : Str} (hos : sumOk (some sm)) : sm.getLast? ≠ some '-' := by
  obtain ⟨hsne, hsdig⟩ := hos
  have hdec := signSplit_decomp sm
  rw [hdec, List.getLast?_append_of_ne_nil _ hsne]
  exact digits_last_ne_dash hsdig

/-- A well-shaped optional-group string contains no `<`. -/
theorem sm_noLt {sm : Str} (hos : sumOk (some sm)) : '<' ∉ sm := by
  obtain ⟨hsne, hsdig⟩ := hos
  have hdec := signSplit_decomp sm
  rw [hdec]
  intro hmem
  rcases List.mem_append.1 hmem with h | h
  · rcases signSplit_fst sm with hsg | hsg <;> rw [hsg] at h <;> simp at h
  · exact no_lt_of_digits hsdig h

/-- Marker text never contains the block separator `---`. -/
theorem mkMarker_noSep {d : Str} {os : Option Str} (hd : digitsOk d) (hos : sumOk os) :
    noSep (mkMarker d os) := by
  have hdns : noSep d := noSep_of_no_dash (no_dash_of_digits hd.2)
  have hdlast : d.getLast? ≠ some '-' := digits_last_ne_dash hd.2
  rcases os with - | sm
  · rw [mkMarker_none_eq]
    apply seps_append _ _ (by decide) _ (Or.inl (by decide))
    exact seps_append _ _ hdns (by decide) (Or.inl hdlast)
  · rw [mkMarker_some_eq]
    apply seps_append _ _ (by decide) _ (Or.inl (by decide))
    apply seps_append _ _ hdns _ (Or.inl hdlast)
    apply seps_append _ _ (by decide) _ (Or.inl (by decide))
    exact seps_append _ _ (sm_noSep hos) (by decide) (Or.inl (sm_last_ne_dash hos))

/-- Everything after the marker's leading `<` is `<`-free. -/
theorem mkMarker_tail_noLt {d : Str} {os : Option Str} (hd : digitsOk d) (hos : sumOk os) :
    noLt ((mkMarker d os).tail) := by
  rcases os with - | sm
  · rw [mkMarker_none_eq]
    show '<' ∉ (['!', '-', '-', 'M', 'e', 't', 'a', ':', 'i', 'd', '='] ++ (d ++ LITEND))
    intro hmem
    rcases List.mem_append.1 hmem with h | h
    · exact absurd h (by decide)
    rcases List.mem_append.1 h with h | h
    · exact no_lt_of_digits hd.2 h
    · exact absurd h (by decide)
  · rw [mkMarker_some_eq]
    show '<' ∉ (['!', '-', '-', 'M', 'e', 't', 'a', ':', 'i', 'd', '='] ++
      (d ++ (LITSUM ++ (sm ++ LITEND))))
    intro hmem
    rcases List.mem_append.1 hmem with h | h
    · exact absurd h (by decide)
    rcases List.mem_append.1 h with h | h
    · exact no_lt_of_digits hd.2 h
    rcases List.mem_append.1 h with h | h
    · exact absurd h (by decide)
    rcases List.mem_append.1 h with h | h
    · exact sm_noLt hos h
    · exact absurd h (by decide)

/-- Marker text determines its groups: the encoding is injective on
well-shaped group pairs. -/
theorem mkMarker_inj {d1 d2 : Str} {os1 os2 : Option Str}
    (hd1 : digitsOk d1) (hos1 : sumOk os1) (hd2 : digitsOk d2) (hos2 : sumOk os2)
    (h : mkMarker d1 os1 = mkMarker d2 os2) : d1 = d2 ∧ os1 = os2 := by
  have h1 := mkMarker_matchAt hd1 hos1 ([] : Str)
  have h2 := mkMarker_matchAt hd2 hos2 ([] : Str)
  rw [h] at h1
  rw [h1] at h2
  simp only [Option.some.injEq, Prod.mk.injEq] at h2
  exact ⟨h2.1, h2.2.1⟩

/-- `dropWhile` stops exactly at the junction when the right part starts with
a character failing the predicate. -/
theorem dropWhile_append_stop {z : Str}
    (hz : ∀ c, z.head? = some c → pyIsSpace c = false) :
    ∀ x : Str, List.dropWhile pyIsSpace (x ++ z) = List.dropWhile pyIsSpace x ++ z := by
  intro x
  induction x with
  | nil =>
    simp only [List.nil_append, List.dropWhile_nil]
    cases z with
    | nil => rfl
    | cons c w =>
      simp [List.dropWhile, hz c rfl]
  | cons c x' ih =>
    by_cases hc : pyIsSpace c = true
    · simp only [List.cons_append, List.append_eq, List.dropWhile, hc, ih]
    · have hcf : pyIsSpace c = false := by
        cases h : pyIsSpace c
        · rfl
        · exact absurd h hc
      simp [List.dropWhile, hcf]

/-- `lstrip` of an append whose right part starts with non-whitespace. -/
theorem lstrip_append {x z : Str} (hz : headNoWs z) :
    lstrip (x ++ z) = lstrip x ++ z :=
  dropWhile_append_stop hz x

/-- `rstrip` of an append whose left part ends with non-whitespace. -/
theorem rstrip_append {a y : Str}
    (ha : ∀ c, a.getLast? = some c → pyIsSpace c = false) :
    rstrip (a ++ y) = a ++ rstrip y := by
  unfold rstrip
  rw [List.reverse_append]
  have hz : ∀ c, a.reverse.head? = some c → pyIsSpace c = false := by
    intro c hc
    rw [List.head?_reverse] at hc
    exact ha c hc
  rw [dropWhile_append_stop hz y.reverse, List.reverse_append, List.reverse_reverse]

/-- Characterwise ASCII-case-insensitive string equality (same length): the
way a `(?i)` literal matches. -/
def ciEqStr : Str → Str → Bool
  | [], [] => true
  | a :: as, b :: bs => (a.toLower = b.toLower) && ciEqStr as bs
  | _, _ => false

/-- Case-insensitively equal strings have equal length. -/
theorem ciEqStr_len : ∀ {a b : Str}, ciEqStr a b = true → a.length = b.length
  | [], [], _ => rfl
  | [], _ :: _, h => by simp [ciEqStr] at h
  | _ :: _, [], h => by simp [ciEqStr] at h
  | a :: as, b :: bs, h => by
    simp only [ciEqStr, Bool.and_eq_true] at h
    simp [ciEqStr_len h.2]

/-- A case-insensitive pattern matches at a string case-insensitively equal
to it, whatever follows. -/
theorem ciBegins_of_ciEqStr : ∀ {tc p : Str}, ciEqStr tc p = true →
    ∀ rest : Str, ciBegins p (tc ++ rest) = true
  | [], [], _, rest => rfl
  | [], _ :: _, h, _ => by simp [ciEqStr] at h
  | _ :: _, [], h, _ => by simp [ciEqStr] at h
  | c :: tcs, q :: qs, h, rest => by
    simp only [ciEqStr, Bool.and_eq_true, decide_eq_true_eq] at h
    simp only [List.cons_append, ciBegins, Bool.and_eq_true, decide_eq_true_eq]
    exact ⟨h.1.symm, ciBegins_of_ciEqStr h.2 rest⟩

/-- Each character of a case-insensitively equal string lowercases to the
lowercase of some pattern character. -/
theorem ciEqStr_mem : ∀ {a b : Str}, ciEqStr a b = true →
    ∀ c ∈ a, ∃ d ∈ b, c.toLower = d.toLower
  | [], [], _, c, hc => absurd hc (by simp)
  | [], _ :: _, h, _, _ => by simp [ciEqStr] at h
  | _ :: _, [], h, _, _ => by simp [ciEqStr] at h
  | x :: as, y :: bs, h, c, hc => by
    simp only [ciEqStr, Bool.and_eq_true, decide_eq_true_eq] at h
    rcases List.mem_cons.1 hc with rfl | hc'
    · exact ⟨y, List.mem_cons_self _ _, h.1⟩
    · obtain ⟨d, hd, he⟩ := ciEqStr_mem h.2 c hc'
      exact ⟨d, List.mem_cons_of_mem _ hd, he⟩

/-- Every character of the tag literal is already lowercase. -/
theorem tagl_lower : ∀ d ∈ TAGL, d.toLower = d := by decide

/-- Characters of a string case-insensitively equal to the tag lowercase into
the tag literal itself. -/
theorem tc_lower_mem {tc : Str} (h : ciEqStr tc TAGL = true) :
    ∀ c ∈ tc, c.toLower ∈ TAGL := by
  intro c hc
  obtain ⟨d, hd, he⟩ := ciEqStr_mem h c hc
  rw [he, tagl_lower d hd]
  exact hd

/-- A tag occurrence contains no dash. -/
theorem tc_no_dash {tc : Str} (h : ciEqStr tc TAGL = true) : '-' ∉ tc := by
  intro hm
  exact absurd (tc_lower_mem h '-' hm) (by decide)

/-- A tag occurrence contains no `<`. -/
theorem tc_noLt {tc : Str} (h : ciEqStr tc TAGL = true) : noLt tc := by
  intro hm
  exact absurd (tc_lower_mem h '<' hm) (by decide)

/-- A tag occurrence does not end in a dash. -/
theorem tc_last_ne_dash {tc : Str} (h : ciEqStr tc TAGL = true) :
    tc.getLast? ≠ some '-' := by
  intro hg
  exact tc_no_dash h (List.mem_of_getLast?_eq_some hg)

/-- A tag occurrence starts with a literal `#`. -/
theorem tc_head_sharp {tc : Str} (h : ciEqStr tc TAGL = true) :
    ∃ tcs : Str, tc = '#' :: tcs := by
  cases tc with
  | nil => simp [ciEqStr, TAGL] at h
  | cons c tcs =>
    have h1 : c.toLower = ('#' : Char).toLower := by
      have : ciEqStr (c :: tcs) (('#' : Char) :: ['f', 'l', 'a', 's', 'h', 'c', 'a', 'r', 'd']) = true := h
      simp only [ciEqStr, Bool.and_eq_true, decide_eq_true_eq] at this
      exact this.1
    have hc : c = '#' := toLower_hash (by rw [h1]; decide)
    exact ⟨tcs, by rw [hc]⟩

/-- The concrete characters whitespace can be. -/
theorem pyIsSpace_cases {c : Char} (h : pyIsSpace c = true) :
    c = ' ' ∨ c = '\t' ∨ c = '\n' ∨ c = '\r' ∨ c = '\x0b' ∨ c = '\x0c' := by
  simp only [pyIsSpace, Bool.or_eq_true, decide_eq_true_eq] at h
  tauto

/-- Whitespace is not a dash. -/
theorem ws_ne_dash {c : Char} (h : pyIsSpace c = true) : c ≠ '-' := by
  rcases pyIsSpace_cases h with rfl | rfl | rfl | rfl | rfl | rfl <;> decide

/-- Whitespace is not `<`. -/
theorem ws_ne_lt {c : Char} (h : pyIsSpace c = true) : c ≠ '<' := by
  rcases pyIsSpace_cases h with rfl | rfl | rfl | rfl | rfl | rfl <;> decide

/-- Whitespace does not lowercase to `#`. -/
theorem ws_ne_hash {c : Char} (h : pyIsSpace c = true) : c.toLower ≠ '#' := by
  rcases pyIsSpace_cases h with rfl | rfl | rfl | rfl | rfl | rfl <;> decide

/-- An all-whitespace string contains no dash. -/
theorem ws_no_dash {ws : Str} (h : ws.all pyIsSpace = true) : '-' ∉ ws := by
  intro hm
  have hall : ∀ c ∈ ws, pyIsSpace c = true := by simpa using h
  exact ws_ne_dash (hall '-' hm) rfl

/-- An all-whitespace string contains no `<`. -/
theorem ws_noLt {ws : Str} (h : ws.all pyIsSpace = true) : noLt ws := by
  intro hm
  have hall : ∀ c ∈ ws, pyIsSpace c = true := by simpa using h
  exact ws_ne_lt (hall '<' hm) rfl

/-- An all-whitespace string is `#`-free. -/
theorem ws_noHash {ws : Str} (h : ws.all pyIsSpace = true) : noHash ws := by
  intro c hc
  have hall : ∀ c ∈ ws, pyIsSpace c = true := by simpa using h
  exact ws_ne_hash (hall c hc)

/-- An all-whitespace string does not end in a dash. -/
theorem ws_last_ne_dash {ws : Str} (h : ws.all pyIsSpace = true) :
    ws.getLast? ≠ some '-' := by
  intro hg
  exact ws_no_dash h (List.mem_of_getLast?_eq_some hg)

/-- The separator scan passes a separator-free string through to the end. -/
theorem splitSepGo_noSep : ∀ (s : Str), noSep s → ∀ (acc : Str) (f : Nat), s.length ≤ f →
    splitSepGo f s acc = [acc.reverse ++ s] := by
  intro s
  induction s with
  | nil => intro h acc f hf; cases f <;> simp [splitSepGo]
  | cons c cs ih =>
    intro h acc f hf
    cases f with
    | zero => exact absurd hf (by simp)
    | succ g =>
      unfold noSep at h
      rw [containsSub_cons] at h
      obtain ⟨hb, h2⟩ := Bool.or_eq_false_iff.1 h
      simp only [splitSepGo]
      rw [if_neg (by simp [hb])]
      rw [ih h2 (c :: acc) g (by simp only [List.length_cons] at hf; omega)]
      simp

/-- The separator scan, on reaching the first separator after a separator-free
block not ending in a dash, emits the block and becomes a fresh scan of the
rest. -/
theorem splitSepGo_sep : ∀ (b : Str), noSep b → lastOk b →
    ∀ (rest acc : Str) (f : Nat), (b ++ (SEPS ++ rest)).length ≤ f →
      splitSepGo f (b ++ (SEPS ++ rest)) acc = (acc.reverse ++ b) :: splitSep rest := by
  intro b
  induction b with
  | nil =>
    intro h hl rest acc f hf
    simp only [List.nil_append] at hf ⊢
    cases f with
    | zero => exact absurd hf (by simp [SEPS])
    | succ g =>
      have hshape : (SEPS ++ rest : Str) = '-' :: '-' :: '-' :: rest := rfl
      rw [hshape] at hf ⊢
      simp only [splitSepGo]
      rw [if_pos (by simpa [hshape] using begins_append SEPS rest)]
      have hdrop : (('-' :: '-' :: rest).drop 2 : Str) = rest := rfl
      rw [hdrop]
      simp only [List.length_cons] at hf
      rw [splitSepGo_fuel rest.length rest (le_refl _) g rest.length [] (by omega) (le_refl _)]
      simp [splitSep]
  | cons c b' ih =>
    intro h hl rest acc f hf
    cases f with
    | zero => exact absurd hf (by simp)
    | succ g =>
      unfold noSep at h
      rw [containsSub_cons] at h
      obtain ⟨hb1, h2⟩ := Bool.or_eq_false_iff.1 h
      have hbf : begins SEPS (c :: (b' ++ (SEPS ++ rest))) = false := by
        rcases b' with - | ⟨c1, b''⟩
        · have hc : c ≠ '-' := by simpa [lastOk] using hl
          show begins SEPS (c :: '-' :: '-' :: '-' :: rest) = false
          rw [begins_seps3, decide_eq_false (fun hh : '-' = c => hc hh.symm), Bool.false_and]
        rcases b'' with - | ⟨c2, b3r⟩
        · have hc1 : c1 ≠ '-' := by simpa [lastOk] using hl
          show begins SEPS (c :: c1 :: '-' :: ('-' :: '-' :: rest)) = false
          rw [begins_seps3, decide_eq_false (fun hh : '-' = c1 => hc1 hh.symm),
            Bool.false_and, Bool.and_false]
        · show begins SEPS (c :: c1 :: c2 :: (b3r ++ (SEPS ++ rest))) = false
          rw [begins_seps3]
          rw [begins_seps3] at hb1
          exact hb1
      have hl' : lastOk b' := by
        rcases b' with - | ⟨c1, b''⟩
        · simp [lastOk]
        · simpa [lastOk, List.getLast?_cons_cons] using hl
      simp only [List.cons_append, List.append_eq, splitSepGo]
      rw [if_neg (by simp [hbf])]
      rw [ih h2 hl' rest (c :: acc) g
        (by simp only [List.cons_append, List.length_cons] at hf; omega)]
      simp

/-- The tag pattern cannot match at a character that does not lowercase to
`#`. -/
theorem ciBegins_tagl_false {c : Char} (h : c.toLower ≠ '#') (w : Str) :
    ciBegins TAGL (c :: w) = false := by
  show (decide (('#' : Char).toLower = c.toLower) &&
    ciBegins ['f', 'l', 'a', 's', 'h', 'c', 'a', 'r', 'd'] w) = false
  rw [show ('#' : Char).toLower = '#' from by decide]
  rw [decide_eq_false (fun hh : '#' = c.toLower => h hh.symm), Bool.false_and]

/-- The tag scan passes a `#`-free string through to the end. -/
theorem splitFlashGo_noHash : ∀ (s : Str), noHash s → ∀ (acc : Str) (f : Nat),
    s.length ≤ f → splitFlashGo f s acc = [acc.reverse ++ s] := by
  intro s
  induction s with
  | nil => intro h acc f hf; cases f <;> simp [splitFlashGo]
  | cons c cs ih =>
    intro h acc f hf
    cases f with
    | zero => exact absurd hf (by simp)
    | succ g =>
      have hc : c.toLower ≠ '#' := h c (List.mem_cons_self _ _)
      have h2 : noHash cs := fun d hd => h d (List.mem_cons_of_mem _ hd)
      simp only [splitFlashGo]
      rw [if_neg (by simp [ciBegins_tagl_false hc])]
      rw [ih h2 (c :: acc) g (by simp only [List.length_cons] at hf; omega)]
      simp

/-- The tag scan skips over a `#`-free prefix, accumulating it. -/
theorem splitFlashGo_skip : ∀ (u : Str), noHash u → ∀ (z acc : Str) (f : Nat),
    (u ++ z).length ≤ f →
    splitFlashGo f (u ++ z) acc = splitFlashGo z.length z (u.reverse ++ acc) := by
  intro u
  induction u with
  | nil =>
    intro h z acc f hf
    simp only [List.nil_append, List.reverse_nil] at hf ⊢
    exact splitFlashGo_fuel z.length z (le_refl _) f z.length acc hf (le_refl _)
  | cons c u' ih =>
    intro h z acc f hf
    cases f with
    | zero => exact absurd hf (by simp)
    | succ g =>
      have hc : c.toLower ≠ '#' := h c (List.mem_cons_self _ _)
      have h2 : noHash u' := fun d hd => h d (List.mem_cons_of_mem _ hd)
      simp only [List.cons_append, List.append_eq, splitFlashGo]
      rw [if_neg (by simp [ciBegins_tagl_false hc])]
      rw [ih h2 z (c :: acc) g
        (by simp only [List.cons_append, List.length_cons] at hf; omega)]
      congr 1
      simp [List.append_assoc]

/-- The tag scan, at a tag occurrence followed by its whitespace run, emits
the accumulated part and becomes a fresh scan of the rest. -/
theorem splitFlashGo_tag {tc ws v : Str} (htc : ciEqStr tc TAGL = true)
    (hws : ws.all pyIsSpace = true) (hv : headNoWs v) :
    ∀ (acc : Str) (f : Nat), (tc ++ (ws ++ v)).length ≤ f →
      splitFlashGo f (tc ++ (ws ++ v)) acc = acc.reverse :: splitFlashGo v.length v [] := by
  obtain ⟨tcs, rfl⟩ := tc_head_sharp htc
  intro acc f hf
  have hlen : tcs.length = 9 := by
    have hle := ciEqStr_len htc
    simp only [List.length_cons, List.length_nil, TAGL] at hle
    omega
  cases f with
  | zero => exact absurd hf (by simp)
  | succ g =>
    have hci : ciBegins TAGL (('#' :: tcs) ++ (ws ++ v)) = true :=
      ciBegins_of_ciEqStr htc (ws ++ v)
    simp only [List.cons_append, List.append_eq, splitFlashGo]
    rw [if_pos (by simpa using hci)]
    congr 1
    rw [drop_left_of_len hlen (ws ++ v)]
    rw [(takeWhile_all_append ws v hws hv).2]
    apply splitFlashGo_fuel v.length v (le_refl _) g v.length []
    · simp only [List.cons_append, List.length_cons, List.length_append] at hf
      omega
    · exact le_refl _

/-- `re.split` of a block consisting of a `#`-free front part, one tag
occurrence with its trailing whitespace, and a `#`-free remainder starting
with non-whitespace: exactly the two parts. -/
theorem splitFlash_card {u tc ws v : Str} (hu : noHash u) (htc : ciEqStr tc TAGL = true)
    (hws : ws.all pyIsSpace = true) (hv : headNoWs v) (hvh : noHash v) :
    splitFlash (u ++ (tc ++ (ws ++ v))) = [u, v] := by
  unfold splitFlash
  rw [splitFlashGo_skip u hu (tc ++ (ws ++ v)) [] _ (le_refl _)]
  rw [splitFlashGo_tag htc hws hv (u.reverse ++ []) _ (le_refl _)]
  rw [splitFlashGo_noHash v hvh [] _ (le_refl _)]
  simp

/-- `re.split` of a `#`-free block: one part, the block itself. -/
theorem splitFlash_plain {s : Str} (hs : noHash s) : splitFlash s = [s] := by
  unfold splitFlash
  rw [splitFlashGo_noHash s hs [] _ (le_refl _)]
  simp

/-- `<`-freeness is closed under append. -/
theorem noLt_append {a b : Str} (ha : noLt a) (hb : noLt b) : noLt (a ++ b) := by
  intro h
  rcases List.mem_append.1 h with h | h
  · exact ha h
  · exact hb h

/-- `#`-freeness is closed under append. -/
theorem noHash_append {a b : Str} (ha : noHash a) (hb : noHash b) : noHash (a ++ b) := by
  intro c hc
  rcases List.mem_append.1 hc with h | h
  · exact ha c h
  · exact hb c h

/-- The head of an append whose left part has a head. -/
theorem head?_append_left {a : Str} {c : Char} (h : a.head? = some c) (b : Str) :
    (a ++ b).head? = some c := by
  cases a with
  | nil => exact absurd h (by simp)
  | cons x xs =>
    have hx : x = c := by simpa using h
    simp [hx]

/-- No digit lowercases to `#`. -/
theorem digit_toLower_ne_hash {c : Char} (h : c.isDigit = true) : c.toLower ≠ '#' := by
  intro hlow
  by_cases hc : 65 ≤ c.toNat ∧ c.toNat ≤ 90
  · have hdef : c.toLower = Char.ofNat (c.toNat + 32) := by
      simp only [Char.toLower]
      rw [if_pos ⟨hc.1, hc.2⟩]
    rw [hdef] at hlow
    have hvalid : (c.toNat + 32).isValidChar := Or.inl (by omega)
    have hval := congrArg Char.toNat hlow
    rw [toNat_ofNat_valid hvalid] at hval
    have h35 : ('#' : Char).toNat = 35 := rfl
    omega
  · have hdef : c.toLower = c := by
      simp only [Char.toLower]
      rw [if_neg hc]
    rw [hdef] at hlow
    subst hlow
    exact absurd h (by decide)

/-- Digit strings are `#`-free. -/
theorem digits_noHash {l : Str} (h : l.all Char.isDigit = true) : noHash l := by
  intro c hc
  have hdig : ∀ c ∈ l, Char.isDigit c = true := by simpa using h
  exact digit_toLower_ne_hash (hdig c hc)

/-- Well-shaped optional-group strings are `#`-free. -/
theorem sm_noHash {sm : Str} (hos : sumOk (some sm)) : noHash sm := by
  obtain ⟨hsne, hsdig⟩ := hos
  have hdec := signSplit_decomp sm
  rw [hdec]
  apply noHash_append _ (digits_noHash hsdig)
  rcases signSplit_fst sm with hsg | hsg <;> rw [hsg]
  · intro c hc; exact absurd hc (by simp)
  · intro c hc
    have : c = '-' := by simpa using hc
    subst this
    decide

/-- Marker text is `#`-free: the tag pattern cannot match inside it. -/
theorem mkMarker_noHash {d : Str} {os : Option Str} (hd : digitsOk d) (hos : sumOk os) :
    noHash (mkMarker d os) := by
  have hlitid : noHash LITID := by unfold noHash; decide
  have hlitsum : noHash LITSUM := by unfold noHash; decide
  have hlitend : noHash LITEND := by unfold noHash; decide
  rcases os with - | sm
  · rw [mkMarker_none_eq]
    exact noHash_append hlitid (noHash_append (digits_noHash hd.2) hlitend)
  · rw [mkMarker_some_eq]
    exact noHash_append hlitid (noHash_append (digits_noHash hd.2)
      (noHash_append hlitsum (noHash_append (sm_noHash hos) hlitend)))

/-- A structured document block: plain text, or one card block — front part
`u`, tag occurrence `tc`, the tag's trailing whitespace run `ws`, back text
`x` before the marker, the marker's groups `d`/`os`, and back text `y` after
the marker. -/
inductive Blk
  | plain (s : Str)
  | card (u tc ws x d : Str) (os : Option Str) (y : Str)

/-- The text of a block. -/
def blkStr : Blk → Str
  | .plain s => s
  | .card u tc ws x d os y => u ++ (tc ++ (ws ++ (x ++ (mkMarker d os ++ y))))

/-- The document text of a block list: blocks joined by `---`. -/
def docStr : List Blk → Str
  | [] => []
  | [b] => blkStr b
  | b :: b2 :: bs => blkStr b ++ (SEPS ++ docStr (b2 :: bs))

/-- Well-formedness of a block, the hypotheses of the amended idempotence
claim: text parts contain no block separator, no `#` in any case (so the tag
occurs exactly once per card block) and no `<` (no marker-shaped text), do
not end in a dash (so no separator straddles a junction), the tag part is a
case variant of `#flashcard`, the whitespace run is whitespace and maximal
(the text after it starts with non-whitespace), and the marker groups are
well-shaped. -/
def goodBlk : Blk → Prop
  | .plain s => noHash s ∧ noLt s ∧ noSep s ∧ lastOk s
  | .card u tc ws x d os y =>
      noHash u ∧ noLt u ∧ noSep u ∧
      ciEqStr tc TAGL = true ∧
      ws.all pyIsSpace = true ∧
      headNoWs x ∧
      noHash x ∧ noLt x ∧ noSep x ∧
      noHash y ∧ noLt y ∧ noSep y ∧ lastOk y ∧
      digitsOk d ∧ sumOk os

/-- The back text of a card block starts with non-whitespace (its own first
character, or the marker's `<`). -/
theorem headNoWs_append_mk {x : Str} (hx : headNoWs x) {m : Str}
    (hm : m.head? = some '<') (y : Str) : headNoWs (x ++ (m ++ y)) := by
  intro c hc
  cases x with
  | nil =>
    simp only [List.nil_append] at hc
    rw [head?_append_left hm y] at hc
    have hc' : '<' = c := by simpa using hc
    subst hc'
    decide
  | cons a x' =>
    have hca : a = c := by simpa using hc
    subst hca
    exact hx a rfl

/-- The text of a well-formed block contains no block separator. -/
theorem blk_noSep (b : Blk) (hb : goodBlk b) : noSep (blkStr b) := by
  cases b with
  | plain s => exact hb.2.2.1
  | card u tc ws x d os y =>
    obtain ⟨hu1, hu2, hu3, htc, hws, hx0, hx1, hx2, hx3, hy1, hy2, hy3, hy4, hd, hos⟩ := hb
    show noSep (u ++ (tc ++ (ws ++ (x ++ (mkMarker d os ++ y)))))
    obtain ⟨tcs, htcs⟩ := tc_head_sharp htc
    have h5 : noSep (mkMarker d os ++ y) := by
      apply seps_append _ _ (mkMarker_noSep hd hos) hy3
      left
      rw [mkMarker_last]
      simp
    have h4 : noSep (x ++ (mkMarker d os ++ y)) := by
      apply seps_append _ _ hx3 h5
      right
      rw [head?_append_left (mkMarker_head d os) y]
      simp
    have h3 : noSep (ws ++ (x ++ (mkMarker d os ++ y))) := by
      apply seps_append _ _ (noSep_of_no_dash (ws_no_dash hws)) h4
      exact Or.inl (ws_last_ne_dash hws)
    have h2 : noSep (tc ++ (ws ++ (x ++ (mkMarker d os ++ y)))) := by
      apply seps_append _ _ (noSep_of_no_dash (tc_no_dash htc)) h3
      exact Or.inl (tc_last_ne_dash htc)
    apply seps_append _ _ hu3 h2
    right
    rw [htcs, head?_append_left (show (('#' :: tcs : Str)).head? = some '#' from rfl) _]
    simp

/-- The text of a well-formed block does not end in a dash. -/
theorem blk_lastOk (b : Blk) (hb : goodBlk b) : lastOk (blkStr b) := by
  cases b with
  | plain s => exact hb.2.2.2
  | card u tc ws x d os y =>
    obtain ⟨hu1, hu2, hu3, htc, hws, hx0, hx1, hx2, hx3, hy1, hy2, hy3, hy4, hd, hos⟩ := hb
    show lastOk (u ++ (tc ++ (ws ++ (x ++ (mkMarker d os ++ y)))))
    have h5 : lastOk (mkMarker d os ++ y) := by
      cases y with
      | nil =>
        rw [List.append_nil]
        unfold lastOk
        rw [mkMarker_last]
        simp
      | cons a y' =>
        unfold lastOk
        rw [List.getLast?_append_of_ne_nil _ (by simp)]
        exact hy4
    have hne5 : mkMarker d os ++ y ≠ [] :=
      List.append_ne_nil_of_left_ne_nil (mkMarker_ne_nil d os) y
    have hne4 : x ++ (mkMarker d os ++ y) ≠ [] :=
      List.append_ne_nil_of_right_ne_nil x hne5
    have hne3 : ws ++ (x ++ (mkMarker d os ++ y)) ≠ [] :=
      List.append_ne_nil_of_right_ne_nil ws hne4
    have hne2 : tc ++ (ws ++ (x ++ (mkMarker d os ++ y))) ≠ [] :=
      List.append_ne_nil_of_right_ne_nil tc hne3
    unfold lastOk
    rw [List.getLast?_append_of_ne_nil _ hne2,
      List.getLast?_append_of_ne_nil _ hne3,
      List.getLast?_append_of_ne_nil _ hne4,
      List.getLast?_append_of_ne_nil _ hne5]
    exact h5

/-- Which card, if any, a block contributes at parse time. -/
def cardOf : Blk → Option Flashcard
  | .plain _ => none
  | .card u tc ws x d os y =>
      some (newFlashcard (pyStrip u) (pyStrip (x ++ (mkMarker d os ++ y))))

/-- A well-formed block's text parses as the block's card (or no card). -/
theorem blockToCard_blk (b : Blk) (hb : goodBlk b) : blockToCard (blkStr b) = cardOf b := by
  cases b with
  | plain s =>
    show blockToCard s = none
    unfold blockToCard
    rw [splitFlash_plain hb.1]
  | card u tc ws x d os y =>
    obtain ⟨hu1, hu2, hu3, htc, hws, hx0, hx1, hx2, hx3, hy1, hy2, hy3, hy4, hd, hos⟩ := hb
    have hv : headNoWs (x ++ (mkMarker d os ++ y)) :=
      headNoWs_append_mk hx0 (mkMarker_head d os) y
    have hvh : noHash (x ++ (mkMarker d os ++ y)) :=
      noHash_append hx1 (noHash_append (mkMarker_noHash hd hos) hy1)
    show blockToCard (u ++ (tc ++ (ws ++ (x ++ (mkMarker d os ++ y))))) = _
    unfold blockToCard
    rw [splitFlash_card hu1 htc hws hv hvh]
    rfl

/-- Splitting the document text of well-formed blocks recovers exactly the
blocks' texts. -/
theorem splitSep_docStr : ∀ (D : List Blk), D ≠ [] → (∀ b ∈ D, goodBlk b) →
    splitSep (docStr D) = D.map blkStr := by
  intro D
  induction D with
  | nil => intro h; exact absurd rfl h
  | cons b D' ih =>
    intro _ hD
    rcases D' with - | ⟨b2, D''⟩
    · show splitSep (blkStr b) = [blkStr b]
      unfold splitSep
      rw [splitSepGo_noSep (blkStr b) (blk_noSep b (hD b (by simp))) [] _ (le_refl _)]
      simp
    · show splitSep (blkStr b ++ (SEPS ++ docStr (b2 :: D''))) = blkStr b :: _
      unfold splitSep
      rw [splitSepGo_sep (blkStr b) (blk_noSep b (hD b (by simp)))
        (blk_lastOk b (hD b (by simp))) _ [] _ (le_refl _)]
      rw [ih (by simp) (fun b' hb' => hD b' (List.mem_cons_of_mem _ hb'))]
      simp

/-- Parsing the document text of well-formed blocks yields exactly the card
blocks' cards, in order. -/
theorem parse_docStr (D : List Blk) (hne : D ≠ []) (hD : ∀ b ∈ D, goodBlk b) :
    parse_flashcards (docStr D) = D.filterMap cardOf := by
  unfold parse_flashcards
  rw [splitSep_docStr D hne hD, parseBlocks_filterMap, List.filterMap_map]
  exact List.filterMap_congr (fun b hb => blockToCard_blk b (hD b hb))

/-- `str.replace` passes a `<`-free prefix through untouched when the pattern
starts with `<`. -/
theorem replaceAll_skip {m : Str} (hm : m.head? = some '<') (n : Str) :
    ∀ (s : Str), noLt s → ∀ z : Str, replaceAll m n (s ++ z) = s ++ replaceAll m n z := by
  intro s
  induction s with
  | nil => intro h z; simp
  | cons c cs ih =>
    intro h z
    have hc : c ≠ '<' := fun hh => h (by simp [hh])
    have h2 : noLt cs := fun hh => h (List.mem_cons_of_mem _ hh)
    have hbf : begins m (c :: (cs ++ z)) = false :=
      begins_false_of_head hm (by simp) (fun hh => hc hh.symm)
    unfold replaceAll
    simp only [List.cons_append, List.append_eq, List.length_cons, replaceAllGo]
    rw [if_neg (by simp [hbf])]
    exact congrArg (c :: ·) (ih h2 z)

/-- `str.replace` replaces the pattern where it matches. -/
theorem replaceAll_hit (m n : Str) (hm : m ≠ []) (z : Str) :
    replaceAll m n (m ++ z) = n ++ replaceAll m n z := by
  rcases m with - | ⟨c, m'⟩
  · exact absurd rfl hm
  unfold replaceAll
  simp only [List.cons_append, List.length_cons, replaceAllGo]
  rw [if_pos ⟨by simp, by simpa using begins_append (c :: m') z⟩]
  congr 1
  simp only [List.append_eq]
  rw [List.drop_succ_cons, List.drop_left]
  exact replaceAllGo_fuel (c :: m') n (m' ++ z).length z (by simp) (m' ++ z).length
    z.length (by simp) (le_refl _)

/-- `str.replace` with one marker as the pattern passes a different marker
through untouched. -/
theorem replaceAll_miss_marker {dm d : Str} {osm os : Option Str}
    (hdm : digitsOk dm) (hosm : sumOk osm) (hd : digitsOk d) (hos : sumOk os)
    (hne : mkMarker d os ≠ mkMarker dm osm) (n z : Str) :
    replaceAll (mkMarker dm osm) n (mkMarker d os ++ z) =
      mkMarker d os ++ replaceAll (mkMarker dm osm) n z := by
  have hbf : begins (mkMarker dm osm) (mkMarker d os ++ z) = false := by
    cases hb : begins (mkMarker dm osm) (mkMarker d os ++ z) with
    | false => rfl
    | true =>
      exfalso
      have hdec := begins_decomp _ _ hb
      have h1 := mkMarker_matchAt hd hos z
      have h2 := mkMarker_matchAt hdm hosm
        ((mkMarker d os ++ z).drop (mkMarker dm osm).length)
      rw [← hdec] at h2
      rw [h1] at h2
      simp only [Option.some.injEq, Prod.mk.injEq] at h2
      exact hne h2.2.2.1
  have hconsAll : ∀ w : Str, mkMarker d os ++ w = '<' :: ((mkMarker d os).tail ++ w) := by
    intro w
    rcases os with - | sm <;> rfl
  rw [hconsAll z] at hbf
  rw [hconsAll z, hconsAll (replaceAll (mkMarker dm osm) n z)]
  unfold replaceAll
  simp only [List.length_cons, replaceAllGo]
  rw [if_neg (by simp [hbf])]
  exact congrArg ('<' :: ·)
    (replaceAll_skip (mkMarker_head dm osm) n ((mkMarker d os).tail)
      (mkMarker_tail_noLt hd hos) z)

/-- A document as a list of segments: `<`-free text runs and markers. -/
inductive Seg
  | txt (s : Str)
  | mk (d : Str) (os : Option Str)

/-- The text of a segment. -/
def segStr : Seg → Str
  | .txt s => s
  | .mk d os => mkMarker d os

/-- The text of a segment list. -/
def flatS : List Seg → Str
  | [] => []
  | sg :: L => segStr sg ++ flatS L

/-- Well-formedness of a segment: text runs are `<`-free, marker groups are
well-shaped. -/
def goodSeg : Seg → Prop
  | .txt s => noLt s
  | .mk d os => digitsOk d ∧ sumOk os

/-- Per-segment effect of replacing the marker `(dm, osm)` by `n`. -/
def segReplace (dm : Str) (osm : Option Str) (n : Str) : Seg → Str
  | .txt s => s
  | .mk d os => if d = dm ∧ os = osm then n else mkMarker d os

/-- The text of a segment list after the per-segment replacement. -/
def flatR (dm : Str) (osm : Option Str) (n : Str) : List Seg → Str
  | [] => []
  | sg :: L => segReplace dm osm n sg ++ flatR dm osm n L

/-- On a well-formed segment list, `str.replace` with a marker pattern acts
exactly segmentwise: it replaces precisely the matching marker segments. -/
theorem replaceAll_flat {dm : Str} {osm : Option Str} (hdm : digitsOk dm)
    (hosm : sumOk osm) (n : Str) :
    ∀ L : List Seg, (∀ sg ∈ L, goodSeg sg) →
      replaceAll (mkMarker dm osm) n (flatS L) = flatR dm osm n L := by
  intro L
  induction L with
  | nil => intro h; rfl
  | cons sg L' ih =>
    intro h
    have hsg := h sg (List.mem_cons_self _ _)
    have hL' : ∀ s ∈ L', goodSeg s := fun s hs => h s (List.mem_cons_of_mem _ hs)
    cases sg with
    | txt s =>
      show replaceAll (mkMarker dm osm) n (s ++ flatS L') = s ++ flatR dm osm n L'
      rw [replaceAll_skip (mkMarker_head dm osm) n s hsg (flatS L'), ih hL']
    | mk d os =>
      obtain ⟨hd, hos⟩ := hsg
      show replaceAll (mkMarker dm osm) n (mkMarker d os ++ flatS L') =
        (if d = dm ∧ os = osm then n else mkMarker d os) ++ flatR dm osm n L'
      by_cases heq : d = dm ∧ os = osm
      · obtain ⟨rfl, rfl⟩ := heq
        rw [replaceAll_hit _ n (mkMarker_ne_nil _ _) (flatS L'), ih hL',
          if_pos ⟨rfl, rfl⟩]
      · have hne : mkMarker d os ≠ mkMarker dm osm :=
          fun hmk => heq (mkMarker_inj hd hos hdm hosm hmk)
        rw [replaceAll_miss_marker hdm hosm hd hos hne n (flatS L'), ih hL',
          if_neg heq]

/-- The segments of a block. -/
def blkSegs : Blk → List Seg
  | .plain s => [.txt s]
  | .card u tc ws x d os y => [.txt (u ++ (tc ++ (ws ++ x))), .mk d os, .txt y]

/-- The segments of a document. -/
def docSegs : List Blk → List Seg
  | [] => []
  | [b] => blkSegs b
  | b :: b2 :: bs => blkSegs b ++ (.txt SEPS :: docSegs (b2 :: bs))

/-- `flatS` distributes over append. -/
theorem flatS_append : ∀ L1 L2 : List Seg, flatS (L1 ++ L2) = flatS L1 ++ flatS L2 := by
  intro L1 L2
  induction L1 with
  | nil => rfl
  | cons sg L ih => simp [flatS, ih, List.append_assoc]

/-- A block's segments spell the block's text. -/
theorem flatS_blkSegs (b : Blk) : flatS (blkSegs b) = blkStr b := by
  cases b with
  | plain s => simp [blkSegs, flatS, segStr, blkStr]
  | card u tc ws x d os y => simp [blkSegs, flatS, segStr, blkStr, List.append_assoc]

/-- A document's segments spell the document's text. -/
theorem flatS_docSegs : ∀ D : List Blk, flatS (docSegs D) = docStr D := by
  intro D
  induction D with
  | nil => rfl
  | cons b D' ih =>
    rcases D' with - | ⟨b2, D''⟩
    · exact flatS_blkSegs b
    · show flatS (blkSegs b ++ (.txt SEPS :: docSegs (b2 :: D''))) = _
      rw [flatS_append, flatS_blkSegs]
      show blkStr b ++ (SEPS ++ flatS (docSegs (b2 :: D''))) = _
      rw [ih]
      rfl

/-- A well-formed block's segments are well-formed. -/
theorem goodSeg_blkSegs (b : Blk) (hb : goodBlk b) : ∀ sg ∈ blkSegs b, goodSeg sg := by
  cases b with
  | plain s =>
    intro sg hsg
    have : sg = .txt s := by simpa [blkSegs] using hsg
    subst this
    exact hb.2.1
  | card u tc ws x d os y =>
    obtain ⟨hu1, hu2, hu3, htc, hws, hx0, hx1, hx2, hx3, hy1, hy2, hy3, hy4, hd, hos⟩ := hb
    intro sg hsg
    rcases (by simpa [blkSegs] using hsg :
      sg = .txt (u ++ (tc ++ (ws ++ x))) ∨ sg = .mk d os ∨ sg = .txt y) with rfl | rfl | rfl
    · exact noLt_append hu2 (noLt_append (tc_noLt htc) (noLt_append (ws_noLt hws) hx2))
    · exact ⟨hd, hos⟩
    · exact hy2

/-- A well-formed document's segments are well-formed. -/
theorem goodSeg_docSegs : ∀ D : List Blk, (∀ b ∈ D, goodBlk b) →
    ∀ sg ∈ docSegs D, goodSeg sg := by
  intro D
  induction D with
  | nil => intro _ sg hsg; exact absurd hsg (by simp [docSegs])
  | cons b D' ih =>
    intro hD sg hsg
    rcases D' with - | ⟨b2, D''⟩
    · exact goodSeg_blkSegs b (hD b (by simp)) sg hsg
    · rcases List.mem_append.1 hsg with h | h
      · exact goodSeg_blkSegs b (hD b (by simp)) sg h
      rcases List.mem_cons.1 h with rfl | h'
      · show noLt SEPS
        unfold noLt SEPS
        decide
      · exact ih (fun b' hb' => hD b' (List.mem_cons_of_mem _ hb')) sg h'

/-- The fingerprint `analyze` computes for a card block (independent of the
embedded marker). -/
def cardSumOf (u x y : Str) : Nat :=
  crc32 (utf8Encode (pyStrip u ++ pyStrip (lstrip x ++ rstrip y)))

/-- The block after the run's marker rewrite: a card's marker now carries its
computed fingerprint as its stored sum (an unchanged card's already did). -/
def rewriteBlk : Blk → Blk
  | .plain s => .plain s
  | .card u tc ws x d _ y => .card u tc ws x d (some (natRepr (cardSumOf u x y))) y

/-- Stripping the parsed back text of a card block stops at the marker's
edges: only the outside whitespace of `x` and `y` goes. -/
theorem pyStrip_card_back (x : Str) (d : Str) (os : Option Str) (y : Str) :
    pyStrip (x ++ (mkMarker d os ++ y)) = lstrip x ++ (mkMarker d os ++ rstrip y) := by
  unfold pyStrip
  have hz : headNoWs (mkMarker d os ++ y) := by
    intro c hc
    rw [head?_append_left (mkMarker_head d os) y] at hc
    have hc' : '<' = c := by simpa using hc
    subst hc'
    decide
  rw [lstrip_append hz]
  rw [show lstrip x ++ (mkMarker d os ++ y) = (lstrip x ++ mkMarker d os) ++ y from
    (List.append_assoc _ _ _).symm]
  have ha : ∀ c, (lstrip x ++ mkMarker d os).getLast? = some c → pyIsSpace c = false := by
    intro c hc
    rw [List.getLast?_append_of_ne_nil _ (mkMarker_ne_nil d os), mkMarker_last] at hc
    have hc' : '>' = c := by simpa using hc
    subst hc'
    decide
  rw [rstrip_append ha, List.append_assoc]

/-- `lstrip` preserves `<`-freeness. -/
theorem lstrip_noLt {x : Str} (h : noLt x) : noLt (lstrip x) :=
  fun hm => h (List.dropWhile_subset _ hm)

/-- `rstrip` preserves `<`-freeness. -/
theorem rstrip_noLt {y : Str} (h : noLt y) : noLt (rstrip y) := by
  intro hm
  unfold rstrip at hm
  rw [List.mem_reverse] at hm
  exact h (List.mem_reverse.1 (List.dropWhile_subset _ hm))

/-- What `analyze` does to a card block's parsed card: the marker's groups
are recovered, the fingerprint is `cardSumOf`, and the state is `None`
exactly when the stored sum is the canonical rendering of that fingerprint
(otherwise `UPDATE` — never `INSERT`, as the id group is present); an
unchanged card also keeps its empty media set. -/
theorem analyze_card_fields (render : Str → Str) (u x y d : Str) (os : Option Str)
    (hx2 : noLt x) (hy2 : noLt y) (hd : digitsOk d) (hos : sumOk os) :
    (Flashcard.analyze render
        (newFlashcard (pyStrip u) (pyStrip (x ++ (mkMarker d os ++ y))))).state =
      (if os = some (natRepr (cardSumOf u x y)) then none else some STATE_UPDATE) ∧
    (Flashcard.analyze render
        (newFlashcard (pyStrip u) (pyStrip (x ++ (mkMarker d os ++ y))))).anki_id = some d ∧
    (Flashcard.analyze render
        (newFlashcard (pyStrip u) (pyStrip (x ++ (mkMarker d os ++ y))))).meta_value =
      some (mkMarker d os) ∧
    (Flashcard.analyze render
        (newFlashcard (pyStrip u) (pyStrip (x ++ (mkMarker d os ++ y))))).card_sum =
      some (cardSumOf u x y) ∧
    (os = some (natRepr (cardSumOf u x y)) →
      (Flashcard.analyze render
        (newFlashcard (pyStrip u) (pyStrip (x ++ (mkMarker d os ++ y))))).medias = []) := by
  have hback := pyStrip_card_back x d os y
  have hex : extract_anki_meta (pyStrip (x ++ (mkMarker d os ++ y))) =
      (some d, os, some (mkMarker d os)) := by
    rw [hback]
    exact extract_anki_meta_ctx (lstrip_noLt hx2) hd hos (rstrip y)
  have hsum : generate_card_sum (pyStrip u) (pyStrip (x ++ (mkMarker d os ++ y))) =
      cardSumOf u x y := by
    rw [hback]
    exact generate_card_sum_ctx (lstrip_noLt hx2) (rstrip_noLt hy2) hd hos (pyStrip u)
  unfold Flashcard.analyze
  simp only [newFlashcard, hex, hsum]
  by_cases hco : os = some (natRepr (cardSumOf u x y))
  · rw [if_neg (by simp), if_neg (fun hne => hne hco), if_pos hco]
    exact ⟨rfl, rfl, rfl, rfl, fun _ => rfl⟩
  · rw [if_neg (by simp), if_pos (fun heq => hco heq), if_neg hco]
    refine ⟨?_, ?_, ?_, ?_, fun hc => absurd hc hco⟩ <;> simp [extract_medias]

/-- The marker texts a block can put in the document across a run: its
current marker and its rewritten marker. -/
def blkMarkers : Blk → List Str
  | .plain _ => []
  | .card u _ _ x d os y =>
      [mkMarker d os, mkMarker d (some (natRepr (cardSumOf u x y)))]

/-- No marker text of one block equals a marker text of the other (the
uniqueness hypothesis of the amended idempotence claim). -/
def markersDisjoint (b1 b2 : Blk) : Prop :=
  ∀ m1 ∈ blkMarkers b1, ∀ m2 ∈ blkMarkers b2, m1 ≠ m2

/-- A rewritten block's markers are among the block's markers. -/
theorem blkMarkers_rewrite (b : Blk) : ∀ m ∈ blkMarkers (rewriteBlk b), m ∈ blkMarkers b := by
  cases b with
  | plain s => intro m hm; exact hm
  | card u tc ws x d os y =>
    intro m hm
    rcases (by simpa [rewriteBlk, blkMarkers] using hm :
      m = mkMarker d (some (natRepr (cardSumOf u x y))) ∨
      m = mkMarker d (some (natRepr (cardSumOf u x y)))) with rfl | rfl <;>
      simp [blkMarkers]

/-- Rewriting preserves well-formedness: the new stored sum is a canonical
decimal rendering, hence well-shaped. -/
theorem goodBlk_rewrite (b : Blk) (hb : goodBlk b) : goodBlk (rewriteBlk b) := by
  cases b with
  | plain s => exact hb
  | card u tc ws x d os y =>
    obtain ⟨hu1, hu2, hu3, htc, hws, hx0, hx1, hx2, hx3, hy1, hy2, hy3, hy4, hd, hos⟩ := hb
    have hnew : sumOk (some (natRepr (cardSumOf u x y))) := by
      have h := natRepr_ok (cardSumOf u x y)
      simp only [sumOk, signSplit_digits h.2]
      exact ⟨h.1, h.2⟩
    exact ⟨hu1, hu2, hu3, htc, hws, hx0, hx1, hx2, hx3, hy1, hy2, hy3, hy4, hd, hnew⟩

/-- `docSegs` of an append of nonempty documents: the parts' segments with a
separator segment between. -/
theorem docSegs_append : ∀ (A B : List Blk), A ≠ [] → B ≠ [] →
    docSegs (A ++ B) = docSegs A ++ (.txt SEPS :: docSegs B) := by
  intro A
  induction A with
  | nil => intro B h; exact absurd rfl h
  | cons a A' ih =>
    intro B _ hB
    rcases A' with - | ⟨a2, A''⟩
    · rcases B with - | ⟨b0, B'⟩
      · exact absurd rfl hB
      · rfl
    · show docSegs (a :: (a2 :: A'') ++ B) = _
      have hstep : docSegs (a :: ((a2 :: A'') ++ B)) =
          blkSegs a ++ (.txt SEPS :: docSegs ((a2 :: A'') ++ B)) := by
        rcases A'' with - | ⟨a3, A3r⟩ <;> rfl
      rw [List.cons_append, hstep, ih B (by simp) hB,
        show docSegs (a :: a2 :: A'') = blkSegs a ++ (.txt SEPS :: docSegs (a2 :: A''))
          from rfl]
      simp [List.append_assoc]

/-- On a block none of whose markers is the pattern, the per-segment
replacement changes nothing. -/
theorem map_segReplace_other {dm : Str} {osm : Option Str} {n : Str} (b : Blk)
    (h : ∀ m ∈ blkMarkers b, m ≠ mkMarker dm osm) :
    (blkSegs b).map (segReplace dm osm n) = (blkSegs b).map segStr := by
  cases b with
  | plain s => rfl
  | card u tc ws x d os y =>
    have hne : ¬(d = dm ∧ os = osm) := by
      rintro ⟨rfl, rfl⟩
      exact h (mkMarker d os) (by simp [blkMarkers]) rfl
    simp only [blkSegs, List.map_cons, List.map_nil, segReplace, segStr]
    rw [if_neg hne]

/-- On a document none of whose blocks' markers is the pattern, the
per-segment replacement changes nothing. -/
theorem map_segReplace_docSegs_id {dm : Str} {osm : Option Str} {n : Str} :
    ∀ E : List Blk, (∀ b ∈ E, ∀ m ∈ blkMarkers b, m ≠ mkMarker dm osm) →
      (docSegs E).map (segReplace dm osm n) = (docSegs E).map segStr := by
  intro E
  induction E with
  | nil => intro _; rfl
  | cons b E' ih =>
    intro hE
    rcases E' with - | ⟨b2, E''⟩
    · exact map_segReplace_other b (hE b (by simp))
    · have hre : docSegs (b :: b2 :: E'') = blkSegs b ++ (.txt SEPS :: docSegs (b2 :: E'')) :=
        rfl
      rw [hre]
      simp only [List.map_append, List.map_cons]
      rw [map_segReplace_other b (hE b (by simp)),
        ih (fun b' hb' => hE b' (List.mem_cons_of_mem _ hb'))]
      rfl

/-- The concatenation of a string list. -/
def flatT : List Str → Str
  | [] => []
  | s :: L => s ++ flatT L

/-- `flatS` through `flatT`. -/
theorem flatS_eq_flatT : ∀ L : List Seg, flatS L = flatT (L.map segStr) := by
  intro L
  induction L with
  | nil => rfl
  | cons sg L' ih => simp only [flatS, List.map_cons, flatT, ih]

/-- `flatR` through `flatT`. -/
theorem flatR_eq_flatT (dm : Str) (osm : Option Str) (n : Str) :
    ∀ L : List Seg, flatR dm osm n L = flatT (L.map (segReplace dm osm n)) := by
  intro L
  induction L with
  | nil => rfl
  | cons sg L' ih => simp only [flatR, List.map_cons, flatT, ih]

/-- The one `update_meta` replacement on the whole accumulated document,
localized: when no other block (rewritten before or still ahead) shares the
processed card's marker text, replacing its old marker by the new one turns
exactly that block into its rewritten form. -/
theorem update_replace_doc (L1 L2 : List Blk) (u tc ws x d : Str) (os : Option Str)
    (y : Str) (hg1 : ∀ b ∈ L1, goodBlk b) (hgb : goodBlk (.card u tc ws x d os y))
    (hg2 : ∀ b ∈ L2, goodBlk b)
    (hdis1 : ∀ b1 ∈ L1, ∀ m ∈ blkMarkers b1, m ≠ mkMarker d os)
    (hdis2 : ∀ b2 ∈ L2, ∀ m ∈ blkMarkers b2, m ≠ mkMarker d os) :
    replaceAll (mkMarker d os) (mkMarker d (some (natRepr (cardSumOf u x y))))
        (docStr (L1 ++ (.card u tc ws x d os y :: L2))) =
      docStr (L1 ++ (.card u tc ws x d (some (natRepr (cardSumOf u x y))) y :: L2)) := by
  have hd : digitsOk d := hgb.2.2.2.2.2.2.2.2.2.2.2.2.2.1
  have hos : sumOk os := hgb.2.2.2.2.2.2.2.2.2.2.2.2.2.2
  have hgood : ∀ b ∈ L1 ++ (Blk.card u tc ws x d os y :: L2), goodBlk b := by
    intro b hb
    rcases List.mem_append.1 hb with h | h
    · exact hg1 b h
    rcases List.mem_cons.1 h with rfl | h'
    · exact hgb
    · exact hg2 b h'
  rw [← flatS_docSegs, ← flatS_docSegs]
  rw [replaceAll_flat hd hos _ _ (goodSeg_docSegs _ hgood)]
  rw [flatR_eq_flatT, flatS_eq_flatT]
  congr 1
  have hown : (blkSegs (.card u tc ws x d os y)).map
      (segReplace d os (mkMarker d (some (natRepr (cardSumOf u x y))))) =
      (blkSegs (.card u tc ws x d (some (natRepr (cardSumOf u x y))) y)).map segStr := by
    simp only [blkSegs, List.map_cons, List.map_nil, segReplace, segStr]
    simp
  have hconsR : ∀ L2' : List Blk, (∀ b2 ∈ L2', ∀ m ∈ blkMarkers b2, m ≠ mkMarker d os) →
      (docSegs (Blk.card u tc ws x d os y :: L2')).map
        (segReplace d os (mkMarker d (some (natRepr (cardSumOf u x y))))) =
      (docSegs (Blk.card u tc ws x d (some (natRepr (cardSumOf u x y))) y :: L2')).map
        segStr := by
    intro L2' hdis2'
    rcases L2' with - | ⟨b2, L2''⟩
    · exact hown
    · show ((blkSegs _ ++ (.txt SEPS :: docSegs (b2 :: L2''))).map _) = _
      simp only [List.map_append, List.map_cons]
      rw [hown, map_segReplace_docSegs_id (b2 :: L2'') hdis2']
      rfl
  rcases hL1 : L1 with - | ⟨a, L1'⟩
  · exact hconsR L2 hdis2
  · rw [docSegs_append (a :: L1') _ (by simp) (by simp),
      docSegs_append (a :: L1') _ (by simp) (by simp)]
    simp only [List.map_append, List.map_cons]
    rw [map_segReplace_docSegs_id (a :: L1') (hL1 ▸ hdis1), hconsR L2 hdis2]
    rfl

/-- Which analyzed card a block contributes. -/
def anaCard (render : Str → Str) (b : Blk) : Option Flashcard :=
  (cardOf b).map (Flashcard.analyze render)

/-- Parse plus analyze over a well-formed document, blockwise. -/
theorem parse_analyze_docStr (render : Str → Str) (D : List Blk) (hne : D ≠ [])
    (hD : ∀ b ∈ D, goodBlk b) :
    (parse_flashcards (docStr D)).map (Flashcard.analyze render) =
      D.filterMap (anaCard render) := by
  rw [parse_docStr D hne hD, List.map_filterMap]
  rfl

/-- The marker the marker rewriter writes, flattened the way `update_meta`
builds it. -/
theorem mkMarker_flat (d sm : Str) :
    mkMarker d (some sm) = LITID ++ d ++ LITSUM ++ sm ++ LITEND := by
  simp [mkMarker, List.append_assoc]

/-- The `update_meta` fold of `update_content`, run over a well-formed
document whose already-processed prefix is rewritten: each update card's
single replacement turns exactly its own block into rewritten form, and the
fold ends in the blockwise rewritten document. -/
theorem foldMeta_run (render : Str → Str) :
    ∀ (Dsuf Dpre : List Blk), (∀ b ∈ Dpre, goodBlk b) → (∀ b ∈ Dsuf, goodBlk b) →
    (∀ b1 ∈ Dpre, ∀ b2 ∈ Dsuf, markersDisjoint b1 b2) →
    List.Pairwise markersDisjoint Dsuf →
    foldMeta (Dsuf.filterMap (anaCard render)) (docStr (Dpre.map rewriteBlk ++ Dsuf)) =
      .ok (docStr ((Dpre ++ Dsuf).map rewriteBlk)) := by
  intro Dsuf
  induction Dsuf with
  | nil =>
    intro Dpre h1 h2 h3 h4
    simp [foldMeta]
  | cons b Dsuf' ih =>
    intro Dpre hpre hsuf hcross hpw
    have hgb : goodBlk b := hsuf b (by simp)
    have hsuf' : ∀ b' ∈ Dsuf', goodBlk b' :=
      fun b' hb' => hsuf b' (List.mem_cons_of_mem _ hb')
    obtain ⟨hhead, hpw'⟩ := List.pairwise_cons.1 hpw
    have hassoc : Dpre ++ (b :: Dsuf') = (Dpre ++ [b]) ++ Dsuf' := by simp
    have hpre' : ∀ b' ∈ Dpre ++ [b], goodBlk b' := by
      intro b' hb'
      rcases List.mem_append.1 hb' with h | h
      · exact hpre b' h
      · have hb : b' = b := by simpa using h
        subst hb
        exact hgb
    have hcross' : ∀ b1 ∈ Dpre ++ [b], ∀ b2 ∈ Dsuf', markersDisjoint b1 b2 := by
      intro b1 hb1 b2 hb2
      rcases List.mem_append.1 hb1 with h | h
      · exact hcross b1 h b2 (List.mem_cons_of_mem _ hb2)
      · have hb : b1 = b := by simpa using h
        subst hb
        exact hhead b2 hb2
    cases b with
    | plain s =>
      show foldMeta ((Blk.plain s :: Dsuf').filterMap (anaCard render)) _ = _
      rw [show (Blk.plain s :: Dsuf').filterMap (anaCard render) =
        Dsuf'.filterMap (anaCard render) from by simp [List.filterMap_cons, anaCard, cardOf]]
      have hdoc : Dpre.map rewriteBlk ++ (Blk.plain s :: Dsuf') =
          (Dpre ++ [Blk.plain s]).map rewriteBlk ++ Dsuf' := by
        simp [rewriteBlk]
      rw [hdoc, hassoc]
      exact ih (Dpre ++ [Blk.plain s]) hpre' hsuf' hcross' hpw'
    | card u tc ws x d os y =>
      obtain ⟨hu1, hu2, hu3, htc, hws, hx0, hx1, hx2, hx3, hy1, hy2, hy3, hy4, hd, hos⟩ := hgb
      obtain ⟨hst, hid, hmv, hcs, hmed⟩ := analyze_card_fields render u x y d os hx2 hy2 hd hos
      show foldMeta ((Blk.card u tc ws x d os y :: Dsuf').filterMap (anaCard render)) _ = _
      rw [show (Blk.card u tc ws x d os y :: Dsuf').filterMap (anaCard render) =
        Flashcard.analyze render (newFlashcard (pyStrip u)
          (pyStrip (x ++ (mkMarker d os ++ y)))) :: Dsuf'.filterMap (anaCard render) from by
        simp [List.filterMap_cons, anaCard, cardOf]]
      by_cases hco : os = some (natRepr (cardSumOf u x y))
      · rw [if_pos hco] at hst
        have hum : ∀ data, (Flashcard.analyze render (newFlashcard (pyStrip u)
            (pyStrip (x ++ (mkMarker d os ++ y))))).update_meta data = .ok data := by
          intro data
          unfold Flashcard.update_meta
          rw [if_pos hst]
        simp only [foldMeta, hum]
        have hbeq : rewriteBlk (Blk.card u tc ws x d os y) = Blk.card u tc ws x d os y := by
          simp [rewriteBlk, ← hco]
        have hdoc : Dpre.map rewriteBlk ++ (Blk.card u tc ws x d os y :: Dsuf') =
            (Dpre ++ [Blk.card u tc ws x d os y]).map rewriteBlk ++ Dsuf' := by
          simp [List.map_append, hbeq]
        rw [hdoc, hassoc]
        exact ih (Dpre ++ [Blk.card u tc ws x d os y]) hpre' hsuf' hcross' hpw'
      · rw [if_neg hco] at hst
        have hg1 : ∀ b' ∈ Dpre.map rewriteBlk, goodBlk b' := by
          intro b' hb'
          obtain ⟨b0, hb0, rfl⟩ := List.mem_map.1 hb'
          exact goodBlk_rewrite b0 (hpre b0 hb0)
        have hdis1 : ∀ b1 ∈ Dpre.map rewriteBlk, ∀ m ∈ blkMarkers b1,
            m ≠ mkMarker d os := by
          intro b1 hb1 m hm
          obtain ⟨b0, hb0, rfl⟩ := List.mem_map.1 hb1
          exact hcross b0 hb0 (Blk.card u tc ws x d os y) (by simp) m
            (blkMarkers_rewrite b0 m hm) (mkMarker d os) (by simp [blkMarkers])
        have hdis2 : ∀ b2 ∈ Dsuf', ∀ m ∈ blkMarkers b2, m ≠ mkMarker d os := by
          intro b2 hb2 m hm
          exact (hhead b2 hb2 (mkMarker d os) (by simp [blkMarkers]) m hm).symm
        have hrep := update_replace_doc (Dpre.map rewriteBlk) Dsuf' u tc ws x d os y
          hg1 ⟨hu1, hu2, hu3, htc, hws, hx0, hx1, hx2, hx3, hy1, hy2, hy3, hy4, hd, hos⟩
          hsuf' hdis1 hdis2
        have hum : (Flashcard.analyze render (newFlashcard (pyStrip u)
            (pyStrip (x ++ (mkMarker d os ++ y))))).update_meta
              (docStr (Dpre.map rewriteBlk ++ (Blk.card u tc ws x d os y :: Dsuf'))) =
            .ok (docStr (Dpre.map rewriteBlk ++
              (Blk.card u tc ws x d (some (natRepr (cardSumOf u x y))) y :: Dsuf'))) := by
          unfold Flashcard.update_meta
          rw [if_neg (by simp [hst, STATE_UPDATE])]
          simp only [hid, hmv, hcs]
          rw [← mkMarker_flat d (natRepr (cardSumOf u x y))]
          rw [hrep]
        simp only [foldMeta, hum]
        have hdoc : Dpre.map rewriteBlk ++
            (Blk.card u tc ws x d (some (natRepr (cardSumOf u x y))) y :: Dsuf') =
            (Dpre ++ [Blk.card u tc ws x d os y]).map rewriteBlk ++ Dsuf' := by
          simp [List.map_append, rewriteBlk]
        rw [hdoc, hassoc]
        exact ih (Dpre ++ [Blk.card u tc ws x d os y]) hpre' hsuf' hcross' hpw'

/-- When every response arrives, the per-card loop over skip/update cards
succeeds, returns the card list unchanged and only advances the endpoint
(same oracle). -/
theorem syncAll_ok_of_states (ac : AnkiConnect) :
    ∀ (cards : List Flashcard) (net : Net),
    (∀ c ∈ cards, c.state = none ∨ c.state = some STATE_UPDATE) →
    (∀ i, ∃ r, net.oracle i = .ok r) →
    ∃ net', syncAll ac net cards = (.ok cards, net') ∧ net'.oracle = net.oracle := by
  intro cards
  induction cards with
  | nil => intro net _ _; exact ⟨net, rfl, rfl⟩
  | cons c cs ih =>
    intro net hst hok
    rcases hst c (List.mem_cons_self _ _) with hnone | hupd
    · obtain ⟨net', h1, h2⟩ := ih net (fun c' hc' => hst c' (List.mem_cons_of_mem _ hc')) hok
      simp only [syncAll]
      rw [if_pos hnone, h1]
      exact ⟨net', rfl, h2⟩
    · have hscex : ∃ netc, sync_card ac net c = (.ok c, netc) ∧ netc.oracle = net.oracle := by
        obtain ⟨r, hr⟩ := hok net.k
        refine ⟨{ net with
          k := net.k + 1,
          calls := net.calls ++ [.updateNoteFields (pyInt (c.anki_id.getD []))
            (c.front_html.getD []) (c.back_html.getD [])] }, ?_, rfl⟩
        simp only [sync_card, update_note, invoke]
        rw [if_pos hupd, hr]
      obtain ⟨netc, h1, hor⟩ := hscex
      obtain ⟨net2, h2, hor2⟩ := ih netc (fun c' hc' => hst c' (List.mem_cons_of_mem _ hc'))
        (fun i => by rw [hor]; exact hok i)
      simp only [syncAll]
      rw [if_neg (by simp [hupd]), h1]
      dsimp only
      rw [h2]
      exact ⟨net2, rfl, by rw [hor2, hor]⟩

/-- When every response arrives, the media loop succeeds and only advances
the endpoint. -/
theorem mediasLoop_ok (attach : Str → Option Str) :
    ∀ (ms : List Str) (net : Net), (∀ i, ∃ r, net.oracle i = .ok r) →
    ∃ net', mediasLoop attach net ms = (.ok (), net') ∧ net'.oracle = net.oracle := by
  intro ms
  induction ms with
  | nil => intro net _; exact ⟨net, rfl, rfl⟩
  | cons m ms' ih =>
    intro net hok
    cases hat : attach m with
    | none =>
      obtain ⟨net', h1, h2⟩ := ih net hok
      simp only [mediasLoop]
      rw [hat]
      exact ⟨net', h1, h2⟩
    | some b64 =>
      obtain ⟨r, hr⟩ := hok net.k
      obtain ⟨net2, h2, hor2⟩ := ih { net with
        k := net.k + 1,
        calls := net.calls ++ [.storeMediaFile (basename m) b64] } (fun i => hok i)
      simp only [mediasLoop, add_media_file, invoke]
      rw [hat, hr]
      dsimp only
      rw [h2]
      exact ⟨net2, rfl, hor2⟩

/-- When every response arrives, `sync_medias` succeeds and only advances the
endpoint. -/
theorem sync_medias_ok (attach : Str → Option Str) (cards : List Flashcard) (net : Net)
    (hok : ∀ i, ∃ r, net.oracle i = .ok r) :
    ∃ net', sync_medias attach net cards = (.ok (), net') ∧ net'.oracle = net.oracle := by
  simp only [sync_medias]
  by_cases h : (cards.foldl (fun acc c => setUnion acc c.medias) []) = []
  · rw [if_pos h]
    exact ⟨net, rfl, rfl⟩
  · rw [if_neg h]
    exact mediasLoop_ok attach _ net hok

/-- All-unchanged cards: the per-card loop is a pure pass-through (no call,
no endpoint change). -/
theorem syncAll_skip (ac : AnkiConnect) : ∀ (cards : List Flashcard) (net : Net),
    (∀ c ∈ cards, c.state = none) → syncAll ac net cards = (.ok cards, net) := by
  intro cards
  induction cards with
  | nil => intro net _; rfl
  | cons c cs ih =>
    intro net h
    simp only [syncAll]
    rw [if_pos (h c (List.mem_cons_self _ _)),
      ih net (fun c' hc' => h c' (List.mem_cons_of_mem _ hc'))]

/-- All-unchanged cards: the marker fold is the identity. -/
theorem foldMeta_none : ∀ (cards : List Flashcard) (data : Str),
    (∀ c ∈ cards, c.state = none) → foldMeta cards data = .ok data := by
  intro cards
  induction cards with
  | nil => intro data _; rfl
  | cons c cs ih =>
    intro data h
    have hum : c.update_meta data = .ok data := by
      unfold Flashcard.update_meta
      rw [if_pos (h c (List.mem_cons_self _ _))]
    simp only [foldMeta, hum]
    exact ih data (fun c' hc' => h c' (List.mem_cons_of_mem _ hc'))

/-- Cards with empty media sets accumulate an empty media union. -/
theorem medias_union_nil : ∀ (cards : List Flashcard),
    (∀ c ∈ cards, c.medias = []) →
    cards.foldl (fun acc c => setUnion acc c.medias) [] = [] := by
  intro cards
  induction cards with
  | nil => intro _; rfl
  | cons c cs ih =>
    intro h
    rw [List.foldl_cons, h c (List.mem_cons_self _ _)]
    exact ih (fun c' hc' => h c' (List.mem_cons_of_mem _ hc'))

/-- A well-formed block's analyzed card is a skip or an update (never an
insert: the id group is present), and a skipped card has no media. -/
theorem anaCard_state (render : Str → Str) (b : Blk) (hb : goodBlk b) :
    ∀ c : Flashcard, anaCard render b = some c →
      (c.state = none ∨ c.state = some STATE_UPDATE) ∧
      (c.state = none → c.medias = []) := by
  cases b with
  | plain s => intro c hc; exact absurd hc (by simp [anaCard, cardOf])
  | card u tc ws x d os y =>
    intro c hc
    obtain ⟨hu1, hu2, hu3, htc, hws, hx0, hx1, hx2, hx3, hy1, hy2, hy3, hy4, hd, hos⟩ := hb
    obtain ⟨hst, hid, hmv, hcs, hmed⟩ := analyze_card_fields render u x y d os hx2 hy2 hd hos
    have hceq : Flashcard.analyze render (newFlashcard (pyStrip u)
        (pyStrip (x ++ (mkMarker d os ++ y)))) = c := by
      simpa [anaCard, cardOf] using hc
    subst hceq
    constructor
    · by_cases hco : os = some (natRepr (cardSumOf u x y))
      · left; rw [hst, if_pos hco]
      · right; rw [hst, if_neg hco]
    · intro hnone
      by_cases hco : os = some (natRepr (cardSumOf u x y))
      · exact hmed hco
      · rw [hst, if_neg hco] at hnone
        exact absurd hnone (by simp)

/-- A rewritten well-formed block's analyzed card always classifies
unchanged, with no media. -/
theorem anaCard_rewrite_state (render : Str → Str) (b : Blk) (hb : goodBlk b) :
    ∀ c : Flashcard, anaCard render (rewriteBlk b) = some c →
      c.state = none ∧ c.medias = [] := by
  cases b with
  | plain s => intro c hc; exact absurd hc (by simp [rewriteBlk, anaCard, cardOf])
  | card u tc ws x d os y =>
    intro c hc
    obtain ⟨hu1, hu2, hu3, htc, hws, hx0, hx1, hx2, hx3, hy1, hy2, hy3, hy4, hd, hos⟩ := hb
    have hosn : sumOk (some (natRepr (cardSumOf u x y))) := by
      have h := natRepr_ok (cardSumOf u x y)
      simp only [sumOk, signSplit_digits h.2]
      exact ⟨h.1, h.2⟩
    obtain ⟨hst, hid, hmv, hcs, hmed⟩ :=
      analyze_card_fields render u x y d (some (natRepr (cardSumOf u x y))) hx2 hy2 hd hosn
    have hceq : Flashcard.analyze render (newFlashcard (pyStrip u)
        (pyStrip (x ++ (mkMarker d (some (natRepr (cardSumOf u x y))) ++ y)))) = c := by
      simpa [rewriteBlk, anaCard, cardOf] using hc
    subst hceq
    rw [hst, if_pos rfl]
    exact ⟨rfl, hmed rfl⟩

/-- The second pass over a rewritten well-formed document: every card
classifies unchanged, no remote call is attempted, the endpoint state is
untouched, and the content comes back verbatim with the write flag false. -/
theorem processDoc_run2 (render : Str → Str) (ac : AnkiConnect)
    (attach : Str → Option Str) (net2 : Net) (D : List Blk) (hne : D ≠ [])
    (hD : ∀ b ∈ D, goodBlk b) :
    processDoc render ac attach net2 (docStr (D.map rewriteBlk)) =
      (.ok (docStr (D.map rewriteBlk), false), net2) ∧
    (∀ c ∈ (parse_flashcards (docStr (D.map rewriteBlk))).map (Flashcard.analyze render),
      c.state = none) := by
  have hne' : D.map rewriteBlk ≠ [] := by
    intro h
    exact hne (List.map_eq_nil.1 h)
  have hD' : ∀ b ∈ D.map rewriteBlk, goodBlk b := by
    intro b hb
    obtain ⟨b0, hb0, rfl⟩ := List.mem_map.1 hb
    exact goodBlk_rewrite b0 (hD b0 hb0)
  have hpa := parse_analyze_docStr render (D.map rewriteBlk) hne' hD'
  have hmem : ∀ c ∈ (D.map rewriteBlk).filterMap (anaCard render),
      c.state = none ∧ c.medias = [] := by
    intro c hc
    obtain ⟨b', hb', hcb⟩ := List.mem_filterMap.1 hc
    obtain ⟨b0, hb0, rfl⟩ := List.mem_map.1 hb'
    exact anaCard_rewrite_state render b0 (hD b0 hb0) c hcb
  have hstates : ∀ c ∈ (D.map rewriteBlk).filterMap (anaCard render), c.state = none :=
    fun c hc => (hmem c hc).1
  have hmedias : ∀ c ∈ (D.map rewriteBlk).filterMap (anaCard render), c.medias = [] :=
    fun c hc => (hmem c hc).2
  have hsm : sync_medias attach net2 ((D.map rewriteBlk).filterMap (anaCard render)) =
      (.ok (), net2) := by
    simp only [sync_medias]
    rw [if_pos (medias_union_nil _ hmedias)]
  have huc : update_content ((D.map rewriteBlk).filterMap (anaCard render))
      (docStr (D.map rewriteBlk)) = .ok (docStr (D.map rewriteBlk), false) := by
    unfold update_content
    rw [foldMeta_none _ _ hstates]
    simp
  constructor
  · simp only [processDoc, make_cards]
    rw [hpa, syncAll_skip ac _ net2 hstates]
    dsimp only
    rw [hsm]
    dsimp only
    rw [huc]
  · intro c hc
    rw [hpa] at hc
    exact hstates c hc

/-- The second pass over a folder of rewritten well-formed documents: every
document comes back verbatim, unwritten, with the endpoint untouched. -/
theorem processDocs_run2 (render : Str → Str) (ac : AnkiConnect)
    (attach : Str → Option Str) :
    ∀ (Ds : List (List Blk)) (net2 : Net),
    (∀ E ∈ Ds, E ≠ [] ∧ ∀ b ∈ E, goodBlk b) →
    processDocs render ac attach net2 (Ds.map (fun E => docStr (E.map rewriteBlk))) =
      (.ok (Ds.map (fun E => (docStr (E.map rewriteBlk), false))), net2) := by
  intro Ds
  induction Ds with
  | nil => intro net2 _; rfl
  | cons E Ds' ih =>
    intro net2 hDs
    obtain ⟨hEne, hEg⟩ := hDs E (List.mem_cons_self _ _)
    have h1 := (processDoc_run2 render ac attach net2 E hEne hEg).1
    simp only [List.map_cons, processDocs]
    rw [h1]
    dsimp only
    rw [ih net2 (fun E' hE' => hDs E' (List.mem_cons_of_mem _ hE'))]

/-- Deciding `noHash` (for concrete witnesses). -/
instance (s : Str) : Decidable (noHash s) := by
  unfold noHash
  exact inferInstance

/-- Deciding `noLt` (for concrete witnesses). -/
instance (s : Str) : Decidable (noLt s) := by
  unfold noLt
  exact inferInstance

/-- Deciding `noSep` (for concrete witnesses). -/
instance (s : Str) : Decidable (noSep s) := by
  unfold noSep
  exact inferInstance

/-- Deciding `lastOk` (for concrete witnesses). -/
instance (s : Str) : Decidable (lastOk s) := by
  unfold lastOk
  exact inferInstance

/-- Deciding `headNoWs` (for concrete witnesses). -/
instance : (s : Str) → Decidable (headNoWs s)
  | [] => isTrue (fun c hc => absurd hc (by simp))
  | c :: cs =>
    if h : pyIsSpace c = false then
      isTrue (fun c' hc' => by
        have hcc : c = c' := by simpa using hc'
        rw [← hcc]
        exact h)
    else isFalse (fun hall => h (hall c rfl))

/-- Deciding `goodBlk` (for concrete witnesses). -/
instance : (b : Blk) → Decidable (goodBlk b)
  | .plain s => by unfold goodBlk; exact inferInstance
  | .card u tc ws x d os y => by unfold goodBlk; exact inferInstance

/-- Deciding `markersDisjoint` (for concrete witnesses). -/
instance : DecidableRel markersDisjoint := fun b1 b2 => by
  unfold markersDisjoint
  exact inferInstance

/-- C1 (amended).  Idempotent sync under marker uniqueness: over a
well-formed document (text parts free of the block separator, the tag and
marker-shaped text, no junction forming a separator, well-shaped marker
groups) whose blocks' marker texts — stored and rewritten — are pairwise
distinct across blocks, and a responding remote, one pass succeeds and
returns the blockwise rewritten document; a second pass over that unedited
output classifies every extracted card as unchanged and performs zero
document rewrites (`update_content` reports the accumulated document equal to
its input, write flag false) while touching no remote state (it holds for
every `net2`, which comes back unchanged); likewise across a whole set of
rewritten documents. -/
theorem c1_idempotent_amended (render : Str → Str) (ac : AnkiConnect)
    (attach : Str → Option Str) (net : Net) (D : List Blk)
    (hne : D ≠ []) (hD : ∀ b ∈ D, goodBlk b)
    (hdis : List.Pairwise markersDisjoint D)
    (hok : ∀ i, ∃ r, net.oracle i = .ok r) :
    (∃ w1 net1, processDoc render ac attach net (docStr D) =
        (.ok (docStr (D.map rewriteBlk), w1), net1)) ∧
    (∀ net2, processDoc render ac attach net2 (docStr (D.map rewriteBlk)) =
        (.ok (docStr (D.map rewriteBlk), false), net2)) ∧
    (∀ c ∈ (parse_flashcards (docStr (D.map rewriteBlk))).map (Flashcard.analyze render),
        c.state = none) ∧
    (∀ (net2 : Net) (Ds : List (List Blk)), (∀ E ∈ Ds, E ≠ [] ∧ ∀ b ∈ E, goodBlk b) →
        processDocs render ac attach net2 (Ds.map (fun E => docStr (E.map rewriteBlk))) =
          (.ok (Ds.map (fun E => (docStr (E.map rewriteBlk), false))), net2)) := by
  refine ⟨?_, fun net2 => (processDoc_run2 render ac attach net2 D hne hD).1,
    (processDoc_run2 render ac attach net D hne hD).2,
    fun net2 Ds hDs => processDocs_run2 render ac attach Ds net2 hDs⟩
  have hpa := parse_analyze_docStr render D hne hD
  have hstates : ∀ c ∈ D.filterMap (anaCard render),
      c.state = none ∨ c.state = some STATE_UPDATE := by
    intro c hc
    obtain ⟨b, hb, hcb⟩ := List.mem_filterMap.1 hc
    exact (anaCard_state render b (hD b hb) c hcb).1
  obtain ⟨netA, hA, horA⟩ :=
    syncAll_ok_of_states ac (D.filterMap (anaCard render)) net hstates hok
  obtain ⟨netB, hB, horB⟩ := sync_medias_ok attach (D.filterMap (anaCard render)) netA
    (fun i => by rw [horA]; exact hok i)
  have hfold := foldMeta_run render D [] (by simp) hD (by simp) hdis
  simp only [List.map_nil, List.nil_append] at hfold
  have hucw : ∃ w, update_content (D.filterMap (anaCard render)) (docStr D) =
      .ok (docStr (D.map rewriteBlk), w) := by
    unfold update_content
    rw [hfold]
    exact ⟨_, rfl⟩
  obtain ⟨w1, huc⟩ := hucw
  refine ⟨w1, netB, ?_⟩
  simp only [processDoc, make_cards]
  rw [hpa, hA]
  dsimp only
  rw [hB]
  dsimp only
  rw [huc]

/-- A concrete update-card block for the C1 witness. -/
def BLK_C1A : Blk := .card ("Q1\n".toList) ("#flashcard".toList) ("\n".toList)
  ("A1 ".toList) ("7".toList) (some ("0".toList)) []

/-- A concrete plain block for the C1 witness. -/
def BLK_C1B : Blk := .plain ("notes".toList)

/-- Witness for C1 (amended) at a concrete two-block document. -/
theorem c1_idempotent_amended_witness :
    (([BLK_C1A, BLK_C1B] : List Blk) ≠ [] ∧
      (∀ b ∈ [BLK_C1A, BLK_C1B], goodBlk b) ∧
      List.Pairwise markersDisjoint [BLK_C1A, BLK_C1B]) ∧
    (∀ net2, processDoc renderId acTest attachNone net2
        (docStr ([BLK_C1A, BLK_C1B].map rewriteBlk)) =
      (.ok (docStr ([BLK_C1A, BLK_C1B].map rewriteBlk), false), net2)) :=
  ⟨⟨by simp, by decide, by decide⟩,
    (c1_idempotent_amended renderId acTest attachNone (netOf oracleOK) [BLK_C1A, BLK_C1B]
      (by simp) (by decide) (by decide) (fun i => ⟨some (.num 777), rfl⟩)).2.1⟩
